import Mathlib

/-!
# Verification of the gctree branching-process core

Shallow embedding of `gctree/branching_processes.py` (the likelihood kernel
`CollapsedTree._ll_genotype`, its module-wide memoization cache, the CM-summary
construction, the collapse normalizer in `CollapsedTree.__init__`, the
history-DAG log-likelihood edge weight, the `filter_trees` ranking key, the
local-branching statistics, and the genotype simulator), together with proofs
and refutations of the specification's claims about them.

Python floats are embedded as real numbers (`ℝ`), machine integers as `ℕ`,
raising code as `Option`/`Except`, and the stateful memoization machinery as an
explicit fuel-indexed state machine.
-/

namespace Gctree

/-! ## The pure likelihood kernel

`CollapsedTree._ll_genotype` (branching_processes.py lines 307-371), with the
memoization layer stripped: the value computed for a pair `(c, m)` at
parameters `(p, q)`.  The function returns `none` exactly where the Python
raises `ValueError` ("Zero likelihood event"), and otherwise the triple
(log-likelihood, d/dp, d/dq). -/

/-- `scipy.special.logsumexp` of a list of reals. -/
noncomputable def logsumexp (xs : List ℝ) : ℝ :=
  Real.log (xs.map Real.exp).sum

/-- Softmax-weighted dot product: `(scs.softmax xs * ys).sum`, the form in
which the gradient of a logsumexp is accumulated at line 367-369. -/
noncomputable def softmaxDot (xs ys : List ℝ) : ℝ :=
  ((xs.zip ys).map (fun v => Real.exp v.1 / (xs.map Real.exp).sum * v.2)).sum

/-- The index pairs `(cx, mx)` of the symmetric-split double loop
(lines 341-343), in iteration order, restricted by the guard
`(cx > 0 or mx > 1) and (c - cx > 0 or m - mx > 1)`. -/
def symPairs (c m : ℕ) : List (ℕ × ℕ) :=
  (List.range (c + 1)).flatMap fun cx =>
    (List.range (m + 1)).filterMap fun mx =>
      if (0 < cx ∨ 1 < mx) ∧ (0 < c - cx ∨ 1 < m - mx) then some (cx, mx) else none

/-- The recursion body of `_ll_genotype`, fuel-indexed (the Python recursion
terminates because every recursive call strictly decreases `c + m`, so fuel
`c + m` suffices; the zero-likelihood and base cases are checked before fuel is
consumed, exactly as they are checked before any recursive call in the code). -/
noncomputable def llGenotypeAux : ℕ → ℕ → ℕ → ℝ → ℝ → Option (ℝ × ℝ × ℝ)
  | fuel, c, m, p, q =>
    if c = 0 ∧ m ≤ 1 then none
    else if c = 1 ∧ m = 0 then some (Real.log (1 - p), -1 / (1 - p), 0)
    else if c = 0 ∧ m = 2 then some (Real.log p + 2 * Real.log q, 1 / p, 2 / q)
    else
      match fuel with
      | 0 => none
      | f + 1 => do
        let asym ←
          if 1 ≤ m then
            (llGenotypeAux f c (m - 1) p q).map fun r =>
              [(Real.log 2 + Real.log p + Real.log q + Real.log (1 - q) + r.1,
                1 / p + r.2.1,
                1 / q - 1 / (1 - q) + r.2.2)]
          else some []
        let sym ← (symPairs c m).mapM fun x => do
          let r1 ← llGenotypeAux f x.1 x.2 p q
          let r2 ← llGenotypeAux f (c - x.1) (m - x.2) p q
          pure (Real.log p + 2 * Real.log (1 - q) + r1.1 + r2.1,
                1 / p + r1.2.1 + r2.2.1,
                -2 / (1 - q) + r1.2.2 + r2.2.2)
        let terms := asym ++ sym
        if terms = [] then none
        else
          some (logsumexp (terms.map (·.1)),
                softmaxDot (terms.map (·.1)) (terms.map (·.2.1)),
                softmaxDot (terms.map (·.1)) (terms.map (·.2.2)))

/-- `CollapsedTree._ll_genotype(c, m, p, q)` as a pure value:
(log-likelihood, gradient wrt p, gradient wrt q), or `none` on a
zero-likelihood event. -/
noncomputable def ll_genotype (c m : ℕ) (p q : ℝ) : Option (ℝ × ℝ × ℝ) :=
  llGenotypeAux (c + m) c m p q

/-! ## Input trees and the collapse normalizer

The ete3 trees consumed by `CollapsedTree.__init__`.  A node name in the code
is either a single string or a tuple of merged identifiers produced from a
Python set (the code normalizes one-element tuples back to strings), so names
are embedded as finite sets of identifiers, with plain input names as
singletons.  Branch lengths are not stored: the constructor recomputes every
distance as the Hamming distance between a node's sequence and its parent's
sequence (lines 76-80) before they are ever read. -/

/-- A tree with per-node name, sequence and abundance. -/
inductive PTree : Type
  | node (name : Finset String) (sequence : String) (abundance : ℕ)
      (children : List PTree)

/-- The name of the root node. -/
def PTree.name : PTree → Finset String
  | .node n _ _ _ => n

/-- The sequence of the root node. -/
def PTree.sequence : PTree → String
  | .node _ s _ _ => s

/-- The abundance of the root node. -/
def PTree.abundance : PTree → ℕ
  | .node _ _ a _ => a

/-- The children of the root node. -/
def PTree.children : PTree → List PTree
  | .node _ _ _ cs => cs

mutual

/-- All nodes of the tree, root first. -/
def PTree.nodes : PTree → List PTree
  | .node n s a cs => .node n s a cs :: PTree.nodesList cs

/-- All nodes of a forest, in order. -/
def PTree.nodesList : List PTree → List PTree
  | [] => []
  | t :: ts => t.nodes ++ PTree.nodesList ts

end

/-- All strict descendants of the root, as visited by `iter_descendants`
(the order is irrelevant: only multisets of node data are consumed). -/
def PTree.descList (t : PTree) : List PTree :=
  PTree.nodesList t.children

/-- Modelled from the spec: `gctree.utils.hamming_distance` is not under
`src/`; §2 and §3 define it as the Hamming distance between fixed-length
sequences (the number of differing positions). -/
def hammingDist (a b : String) : ℕ :=
  (a.toList.zip b.toList).countP fun v => decide (v.1 ≠ v.2)

/-- Splice out a child that is an unobserved internal unifurcation
(abundance 0 and exactly one child), replacing it by its child, as
`node.delete` does at lines 71-74. -/
def spliceUnif : PTree → PTree
  | .node _ _ 0 [g] => g
  | t => t

mutual

/-- Remove unobserved internal unifurcations below the root (lines 71-74).
Deleting such a node preserves every other node's child count, so the set of
spliced nodes does not depend on the iteration order. -/
def delUnifs : PTree → PTree
  | .node n s a cs => .node n s a (delUnifsList cs)

/-- `delUnifs` applied below each tree of a forest. -/
def delUnifsList : List PTree → List PTree
  | [] => []
  | c :: cs => spliceUnif (delUnifs c) :: delUnifsList cs

end

/-- The observed genotype names: names of nodes with positive abundance, plus
the root's name (lines 86-89). -/
def observedNames (t : PTree) : Finset (Finset String) :=
  ((t.nodes.filter fun n => 0 < n.abundance).map PTree.name).toFinset ∪ {t.name}

/-- A name, viewed as the set of Python values its member identifiers denote
(each a plain string), for the subset tests against `observed_genotypes`. -/
def partsAsNames (s : Finset String) : Finset (Finset String) :=
  s.image fun x => ({x} : Finset String)

/-- The name-merging rule of lines 104-120: when a child at distance zero is
contracted into its parent, the parent keeps, gains or unites names according
to which of the two names consist of observed genotypes (strict-subset tests
against `observed_genotypes`, as in the Python `<` on sets). -/
def mergeName (obs : Finset (Finset String)) (upName childName : Finset String) :
    Finset String :=
  if partsAsNames upName ⊂ obs then
    if partsAsNames childName ⊂ obs then upName ∪ childName else upName
  else if partsAsNames childName ⊂ obs then childName
  else upName

/-- One step of the contraction fold over a node's (already collapsed)
children: a child at Hamming distance 0 from the parent sequence `sq` is
merged (name, `max` of abundances, and its children queued for appending, as
`ete3`'s `delete` appends them after the surviving children); any other child
is kept. -/
def mergeFold (obs : Finset (Finset String)) (sq : String)
    (acc : Finset String × ℕ × List PTree × List PTree) (c : PTree) :
    Finset String × ℕ × List PTree × List PTree :=
  if hammingDist c.sequence sq = 0 then
    (mergeName obs acc.1 c.name, max c.abundance acc.2.1, acc.2.2.1,
      acc.2.2.2 ++ c.children)
  else (acc.1, acc.2.1, acc.2.2.1 ++ [c], acc.2.2.2)

mutual

/-- The post-order collapse pass of lines 90-121: children are collapsed
first; then every child whose sequence is at Hamming distance 0 from this
node's sequence is contracted into it. -/
def collapseNode (obs : Finset (Finset String)) : PTree → PTree
  | .node nm sq ab cs =>
    let r := (collapseChildren obs cs).foldl (mergeFold obs sq) (nm, ab, [], [])
    .node r.1 sq r.2.1 (r.2.2.1 ++ r.2.2.2)

/-- `collapseNode` applied to each tree of a forest. -/
def collapseChildren (obs : Finset (Finset String)) : List PTree → List PTree
  | [] => []
  | c :: cs => collapseNode obs c :: collapseChildren obs cs

end

/-- The observed genotypes after collapse (lines 132-135): names of nodes with
positive abundance, plus the root's name whatever its abundance. -/
def finalObserved (t : PTree) : Finset (Finset String) :=
  ((t.nodes.filter fun n => 0 < n.abundance).map PTree.name).toFinset ∪ {t.name}

/-- The sequences of all positive-abundance nodes (the population whose
repetitions lines 145-158 count). -/
def posSeqs (t : PTree) : List String :=
  (t.nodes.filter fun n => 0 < n.abundance).map PTree.sequence

/-- The hard failures of `CollapsedTree.__init__`. -/
inductive CollapseError : Type
  | nameMismatch
  | repeatedSequences
deriving DecidableEq

/-- `CollapsedTree.__init__` up to (and including) its two `RuntimeError`
checks: splice unobserved unifurcations, record the observed genotypes,
collapse zero-length edges, verify observed-genotype preservation
(lines 132-143), then reject repeated observed sequences unless
`allow_repeats` (lines 145-158; `rep_seq` counts positive-abundance nodes
minus their distinct sequences).  The subsequent ladderize/renaming pass
only reorders children and renames abundance-0 nodes and is not modelled. -/
def collapseInit (t : PTree) (allowRepeats : Bool) : Except CollapseError PTree :=
  let t1 := delUnifs t
  let obs := observedNames t1
  let t2 := collapseNode obs t1
  if finalObserved t2 ≠ obs then .error .nameMismatch
  else if allowRepeats = false ∧ (posSeqs t2).length - (posSeqs t2).toFinset.card ≠ 0 then
    .error .repeatedSequences
  else .ok t2

/-! ## CM summary (`CollapsedTree._build_cm_counts`, lines 199-212) -/

/-- The `(c, m)` pair of a node: abundance and number of children. -/
def cmPair (t : PTree) : ℕ × ℕ := (t.abundance, t.children.length)

/-- The CM summary of a collapsed tree as a multiset (the Python `Counter`
over `cmlist`): the `(c, m)` pairs of all strict descendants, plus the root's
pair with the pseudocount rule `(0, 1) ↦ (1, 1)`. -/
def cmMultiset (t : PTree) : Multiset (ℕ × ℕ) :=
  (↑(t.descList.map cmPair) : Multiset (ℕ × ℕ)) +
    {if cmPair t = (0, 1) then (1, 1) else cmPair t}

open Classical in
/-- `_lltree(cm_counts, p, q)` (lines 1643-1665): the sum of `ll_genotype`
values and gradients over the CM multiset (the `Counter` groups equal pairs
with multiplicities; over exact reals the grouped sum equals the multiset
sum).  `none` when any pair is a zero-likelihood event, as the underlying
`ValueError` propagates. -/
noncomputable def lltreeOfCM (cm : Multiset (ℕ × ℕ)) (p q : ℝ) : Option (ℝ × ℝ × ℝ) :=
  if ∀ x ∈ cm, (ll_genotype x.1 x.2 p q).isSome then
    some ((cm.map fun x => ((ll_genotype x.1 x.2 p q).getD (0, 0, 0)).1).sum,
          (cm.map fun x => ((ll_genotype x.1 x.2 p q).getD (0, 0, 0)).2.1).sum,
          (cm.map fun x => ((ll_genotype x.1 x.2 p q).getD (0, 0, 0)).2.2).sum)
  else none

/-! ## History-DAG log-likelihood edge weight
(`_ll_genotype_dagfuncs.edge_weight_ll_genotype`, lines 1880-1899) -/

/-- A history-DAG node label: sequence and abundance. -/
structure DagLabel : Type where
  sequence : String
  abundance : ℕ
deriving DecidableEq

/-- The part of a `historydag` node that the edge weight reads: its label, its
child clades (sets of labels), and whether it is the DAG's universal-ancestor
root (`is_root`).  A node is a leaf when it has no child clades. -/
structure DagNode : Type where
  label : DagLabel
  clades : Finset (Finset DagLabel)
  isRoot : Bool

/-- `historydag`'s `is_leaf`: no child clades. -/
def DagNode.isLeafNode (n : DagNode) : Bool := n.clades = ∅

/-- The collapsed `(c, m)` of the child node of an edge: its clade count,
reduced by one when a self-label clade is present (leaf-adjacency collapse). -/
def dagCladeCount (n : DagNode) : ℕ :=
  if ({n.label} : Finset DagLabel) ∈ n.clades then n.clades.card - 1 else n.clades.card

/-- `edge_weight_ll_genotype(n1, n2)` over exact reals: weight 0 on a
collapsed leaf edge; otherwise `ll_genotype(c, m, p, q)[0]` where `c` is the
child's abundance with the pseudocount applied when the parent is the DAG root
and `(c, m) = (0, 1)` (lines 1887-1899; the `Decimal` rounding wrapper is the
identity over exact reals). -/
noncomputable def edge_weight_ll_genotype (p q : ℝ) (n1 n2 : DagNode) : Option ℝ :=
  if n2.isLeafNode ∧ n2.label.sequence = n1.label.sequence then some 0
  else
    let m := dagCladeCount n2
    let c := if n1.isRoot ∧ n2.label.abundance = 0 ∧ m = 1 then 1 else n2.label.abundance
    (ll_genotype c m p q).map (·.1)

/-! ## The `filter_trees` ranking key (lines 1204-1227) and trimming -/

/-- The ranking key used by `filter_trees` when ranking coefficients are
given: `sum(priority * float(weight))` with priorities `[-1] ++ coeffs` over
the weight tuple `(ll, isotype parsimony, mutability parsimony, alleles)`. -/
def minfunckeyCoeffs (coeffs : ℝ × ℝ × ℝ) (w : ℝ × ℝ × ℝ × ℝ) : ℝ :=
  -1 * w.1 + coeffs.1 * w.2.1 + coeffs.2.1 * w.2.2.1 + coeffs.2.2 * w.2.2.2

/-- The ranking key used by `filter_trees` without ranking coefficients
(lines 1223-1227): `(-weighttuple[0],) + weighttuple[1:-1]`, i.e. the triple
`(-ll, isotype parsimony, mutability parsimony)` — the slice `1:-1` drops the
final allele count. -/
def minfunckey (w : ℝ × ℝ × ℝ × ℝ) : ℝ × ℝ × ℝ := (-w.1, w.2.1, w.2.2.1)

/-- The ranking key as the claim states it, following the spec's words
("lexicographic: `(−ℓℓ, iso, mut, alleles)`"); the refinement comparand for
the code's `minfunckey`. -/
def specLexKey (w : ℝ × ℝ × ℝ × ℝ) : ℝ × ℝ × ℝ × ℝ := (-w.1, w.2.1, w.2.2.1, w.2.2.2)

/-- Lexicographic order on key triples, as Python compares tuples. -/
def lexLe3 (a b : ℝ × ℝ × ℝ) : Prop :=
  a.1 < b.1 ∨ (a.1 = b.1 ∧ (a.2.1 < b.2.1 ∨ (a.2.1 = b.2.1 ∧ a.2.2 ≤ b.2.2)))

/-- Lexicographic order on key quadruples, as Python compares tuples. -/
def lexLe4 (a b : ℝ × ℝ × ℝ × ℝ) : Prop :=
  a.1 < b.1 ∨ (a.1 = b.1 ∧ lexLe3 (a.2.1, a.2.2.1, a.2.2.2) (b.2.1, b.2.2.1, b.2.2.2))

open Classical in
/-- Modelled from the spec: `historydag.HistoryDag.trim_optimal_weight` is an
external collaborator (not under `src/`); §4.7 specifies it as "subsets the
DAG to exactly those histories achieving the optimum".  Represented on the
list of per-history weight tuples: keep exactly the histories whose key is
minimal under the given order. -/
noncomputable def trimToOptimal {W K : Type} (key : W → K) (le : K → K → Prop)
    (ws : List W) : List W :=
  ws.filter fun w => ∀ w' ∈ ws, le (key w) (key w')

/-! ## Local branching (`CollapsedTree.local_branching`, lines 866-922) -/

/-- A tree with per-node abundance and parent-edge branch length, the data
`local_branching` reads. -/
inductive LBTree : Type
  | node (abundance : ℕ) (dist : ℝ) (children : List LBTree)

/-- The abundance of the root node. -/
def LBTree.abundance : LBTree → ℕ
  | .node a _ _ => a

/-- The parent-edge length of the root node. -/
def LBTree.dist : LBTree → ℝ
  | .node _ d _ => d

/-- The children of the root node. -/
def LBTree.children : LBTree → List LBTree
  | .node _ _ cs => cs

/-- `clone_contribution` (line 881): `tau * (1 - exp(-tau0 / tau))`. -/
noncomputable def cloneContribution (tau tau0 : ℝ) : ℝ :=
  tau * (1 - Real.exp (-tau0 / tau))

/-- The self entry `LB_down[node]` of a node's downward-integral dictionary
(lines 884-892): `abundance * clone_contribution` for internal nodes, but for
leaves only when `abundance > 1`, and `0` otherwise. -/
noncomputable def lbDownSelf (tau tau0 : ℝ) (t : LBTree) : ℝ :=
  if t.children.isEmpty then
    (if 1 < t.abundance then t.abundance * cloneContribution tau tau0 else 0)
  else t.abundance * cloneContribution tau tau0

mutual

/-- `sum(node.LB_down.values())`: the self entry plus, per child `c`, the
message `tau * (1 - exp(-c.dist/tau)) + exp(-c.dist/tau) * sum(c.LB_down.values())`
(lines 884-896). -/
noncomputable def lbDownTotal (tau tau0 : ℝ) : LBTree → ℝ
  | .node a d cs =>
    lbDownSelf tau tau0 (.node a d cs) + lbDownChildSum tau tau0 cs

/-- The sum of the per-child downward messages of lines 893-896. -/
noncomputable def lbDownChildSum (tau tau0 : ℝ) : List LBTree → ℝ
  | [] => 0
  | c :: cs =>
    (tau * (1 - Real.exp (-c.dist / tau)) +
      Real.exp (-c.dist / tau) * lbDownTotal tau tau0 c) + lbDownChildSum tau tau0 cs

end

/-! ## Genotype simulation (`CollapsedTree._simulate_genotype`, lines 214-255) -/

/-- The breadth-first simulation loop: while `cumsum_clones > len_tree - 1`,
draw one uniform variate; with probability `p` the node branches into two
children, each independently mutant with probability `q` (two more draws), and
otherwise the node is a clonal leaf.  `draws` is the stream of uniform
variates, `idx` the next unconsumed index, and `fuel` bounds the number of
iterations (`none` = has not terminated within `fuel` iterations). -/
noncomputable def simLoop (p q : ℝ) (draws : ℕ → ℝ) :
    ℕ → ℕ → ℕ → ℕ → ℕ → ℕ → Option (ℕ × ℕ)
  | 0, _, _, _, _, _ => none
  | fuel + 1, idx, cumsum, len, c, m =>
    if len < cumsum + 1 then
      if draws idx < p then
        let mutants := (if draws (idx + 1) < q then 1 else 0) +
          (if draws (idx + 2) < q then 1 else 0)
        simLoop p q draws fuel (idx + 3) (cumsum + (2 - mutants)) (len + 1) c (m + mutants)
      else
        simLoop p q draws fuel (idx + 1) cumsum (len + 1) (c + 1) m
    else some (c, m)

/-- `_simulate_genotype(p, q)`: validates `p, q ∈ [0, 1]` (a `ValueError`
otherwise, here `none`) and runs the loop from the empty tree. -/
noncomputable def simulate_genotype (p q : ℝ) (draws : ℕ → ℝ) (fuel : ℕ) :
    Option (ℕ × ℕ) :=
  if 0 ≤ p ∧ p ≤ 1 ∧ 0 ≤ q ∧ q ≤ 1 then simLoop p q draws fuel 0 0 0 0 0 else none

/-! ## The memoization cache machine

`_ll_genotype` is wrapped in `functools.lru_cache` (keyed on `(c, m, p, q)`)
and guarded by the class-level dictionary `CollapsedTree._max_ll_cache`
(lines 278-305): on entry the body looks up the current `(p, q)` in
`_max_ll_cache`; a miss clears both caches; a request beyond the recorded
corner stamps the new corner and bulk-fills three rectangles of cells before
re-requesting the target.

The machine below embeds this state and control flow exactly.  Because no
branch of the Python code inspects a *computed value* — the control flow reads
only `(c, m)`, the corner, and cache-key membership — the machine tracks the
*keys* of the `lru_cache`; each key's stored value is the pure
`ll_genotype` of that key, which is what the deterministic body computes from
pure sub-values.  The parameter type `ρ` stands for the `(p, q)` key (a pair
of floats in the code); the machine is generic in it since only equality of
keys is ever consulted.  `fuel` bounds the call depth (the Python call stack);
`none` means the bound was exceeded, `some (st, true)` a return and
`some (st, false)` a raised `ValueError`. -/

/-- The module-level cache state: `_max_ll_cache` (empty or a single entry
`(p, q) ↦ (c, m)`, which is all the code's clear-then-set discipline can
produce) and the key set of the `lru_cache`, in insertion order. -/
structure LLCacheState (ρ : Type) : Type where
  maxLLCache : Option (ρ × ℕ × ℕ)
  memo : List ((ℕ × ℕ) × ρ)
deriving DecidableEq

/-- The state before any call: both caches empty. -/
def freshLLState (ρ : Type) : LLCacheState ρ := ⟨none, []⟩

/-- Python `range a b` as a list. -/
def pyRange (a b : ℕ) : List ℕ := List.range' a (b - a)

/-- The cells requested by the three bulk-fill loops (lines 292-303), in
iteration order, restricted by the guard `cx > 0 or mx > 1`. -/
def fillCells (t1 t2 c m : ℕ) : List (ℕ × ℕ) :=
  ((pyRange 0 (t1 + 1)).flatMap fun cx =>
    (pyRange t2 (m + 1)).filterMap fun mx =>
      if 0 < cx ∨ 1 < mx then some (cx, mx) else none) ++
  ((pyRange 0 (t2 + 1)).flatMap fun mx =>
    (pyRange t1 (c + 1)).filterMap fun cx =>
      if 0 < cx ∨ 1 < mx then some (cx, mx) else none) ++
  ((pyRange (t2 + 1) (m + 1)).flatMap fun mx =>
    (pyRange (t1 + 1) (c + 1)).filterMap fun cx =>
      if 0 < cx ∨ 1 < mx then some (cx, mx) else none)

/-- The recursive calls issued by the computing branch of the body
(lines 318-351), in call order: the asymmetric-split neighbour `(c, m-1)`
when `m ≥ 1`, then for each guarded symmetric split the two halves. -/
def computeDeps (c m : ℕ) : List (ℕ × ℕ) :=
  (if 1 ≤ m then [(c, m - 1)] else []) ++
  (List.range (c + 1)).flatMap fun cx =>
    (List.range (m + 1)).flatMap fun mx =>
      if (0 < cx ∨ 1 < mx) ∧ (0 < c - cx ∨ 1 < m - mx) then
        [(cx, mx), (c - cx, m - mx)]
      else []

/-- Record a key in the `lru_cache` on successful return (a no-op when the
key is already present). -/
def insertMemo {ρ : Type} [DecidableEq ρ] (st : LLCacheState ρ) (c m : ℕ) (pq : ρ) :
    LLCacheState ρ :=
  if ((c, m), pq) ∈ st.memo then st else ⟨st.maxLLCache, ((c, m), pq) :: st.memo⟩

/-- The body's entry bookkeeping (lines 278-284): if the current parameters
are a key of `_max_ll_cache` read the recorded corner, otherwise clear both
caches and use `(0, 0)`. -/
def effCache {ρ : Type} [DecidableEq ρ] (st : LLCacheState ρ) (pq : ρ) :
    LLCacheState ρ × ℕ × ℕ :=
  match st.maxLLCache with
  | some (pq', a, b) => if pq' = pq then (st, a, b) else (⟨none, []⟩, 0, 0)
  | none => (⟨none, []⟩, 0, 0)

mutual

/-- A call to the `lru_cache`-wrapped `_ll_genotype(c, m, pq)`: a key hit
returns at once; otherwise the body runs (entry bookkeeping, then either the
three-loop bulk fill followed by a re-request of the target, or the
zero-likelihood check, the closed-form base cases, or the computing branch
issuing its recursive calls), and a successful return records the key. -/
def llCallM {ρ : Type} [DecidableEq ρ] (fuel : ℕ) (pq : ρ) (st : LLCacheState ρ)
    (c m : ℕ) : Option (LLCacheState ρ × Bool) :=
  match fuel with
  | 0 => none
  | f + 1 =>
    if ((c, m), pq) ∈ st.memo then some (st, true)
    else
      match effCache st pq with
      | (st1, t1, t2) =>
        if t1 < c ∨ t2 < m then
          match llList f pq ⟨some (pq, c, m), st1.memo⟩ (fillCells t1 t2 c m) with
          | some (st2, true) =>
            match llCallM f pq st2 c m with
            | some (st3, true) => some (insertMemo st3 c m pq, true)
            | r => r
          | r => r
        else if c = 0 ∧ m ≤ 1 then some (st1, false)
        else if (c = 1 ∧ m = 0) ∨ (c = 0 ∧ m = 2) then some (insertMemo st1 c m pq, true)
        else
          match llList f pq st1 (computeDeps c m) with
          | some (st2, true) =>
            if computeDeps c m = [] then some (st2, false)
            else some (insertMemo st2 c m pq, true)
          | r => r
termination_by (fuel, 0)

/-- Issue a sequence of calls, stopping at the first raised error or at fuel
exhaustion (an exception aborts the enclosing loop). -/
def llList {ρ : Type} [DecidableEq ρ] (fuel : ℕ) (pq : ρ) (st : LLCacheState ρ) :
    List (ℕ × ℕ) → Option (LLCacheState ρ × Bool)
  | [] => some (st, true)
  | x :: rest =>
    match llCallM fuel pq st x.1 x.2 with
    | some (st', true) => llList fuel pq st' rest
    | some (st', false) => some (st', false)
    | none => none
termination_by cells => (fuel, cells.length + 1)

end

/-! ## Specification predicates for the cache machine

The invariants and input/output relations used to verify the bulk-fill
discipline.  A cache key is *legal* when it is not a zero-likelihood cell;
the reachable `lru_cache` key sets are downward-closed sets of legal cells;
`rectCells c m` is the key set a fresh bulk fill up to `(c, m)` produces. -/

/-- A cell that passes the fill loops' guard `cx > 0 or mx > 1`, i.e. is not
a zero-likelihood event. -/
def legalCell (x : ℕ × ℕ) : Prop := 0 < x.1 ∨ 1 < x.2

instance (x : ℕ × ℕ) : Decidable (legalCell x) := by
  unfold legalCell; infer_instance

/-- The legal cells of the rectangle `[0, c] × [0, m]`: the `lru_cache` keys
after a fresh bulk fill up to `(c, m)`. -/
def rectCells (c m : ℕ) : Set (ℕ × ℕ) := {x | legalCell x ∧ x.1 ≤ c ∧ x.2 ≤ m}

/-- The `lru_cache` keys recorded for parameters `pq`. -/
def memoSet {ρ : Type} (st : LLCacheState ρ) (pq : ρ) : Set (ℕ × ℕ) :=
  {x | (x, pq) ∈ st.memo}

/-- A downward-closed set of legal cells. -/
def DCSet (S : Set (ℕ × ℕ)) : Prop :=
  (∀ x ∈ S, legalCell x) ∧
  ∀ x ∈ S, ∀ y, legalCell y → y.1 ≤ x.1 → y.2 ≤ x.2 → y ∈ S

/-- Key consistency: `lru_cache` keys for `pq` exist only while
`_max_ll_cache` holds `pq` (all reachable states satisfy this, since a key is
recorded only after a body run that either found or installed `pq` in
`_max_ll_cache`). -/
def Consistent {ρ : Type} (st : LLCacheState ρ) (pq : ρ) : Prop :=
  ∀ x ∈ memoSet st pq, ∃ a b, st.maxLLCache = some (pq, a, b)

/-- The state between top-level requests at fixed parameters `pq`: the corner
`T` is recorded (or the state is untouched and `T = (0, 0)`), the key set is
exactly the filled rectangle up to `T`, and no keys exist for other
parameters. -/
def RectState {ρ : Type} (st : LLCacheState ρ) (pq : ρ) (T : ℕ × ℕ) : Prop :=
  (st.maxLLCache = some (pq, T.1, T.2) ∨
    (st.maxLLCache = none ∧ T = (0, 0) ∧ st.memo = [])) ∧
  memoSet st pq = rectCells T.1 T.2 ∧
  ∀ pq', pq' ≠ pq → memoSet st pq' = ∅

/-- The verified input/output relation of one `_ll_genotype` call at a legal
cell from a consistent state with downward-closed keys: the call returns
(rather than raising), preserves the invariants and the keys of other
parameters, and — writing `(st1, t1, t2)` for the state and corner after the
entry bookkeeping — leaves the keys unchanged on a hit, adds exactly
`rectCells c m` on an in-corner miss, and adds exactly
`rectCells (max t1 c) (max t2 m)` on a corner-extending miss, recording some
corner `u` between `(c, m)` and the rectangle corner such that every added
cell is below `u` or was already present. -/
def CallOut {ρ : Type} [DecidableEq ρ] (pq : ρ) (st : LLCacheState ρ) (c m : ℕ)
    (r : LLCacheState ρ × Bool) : Prop :=
  r.2 = true ∧
  DCSet (memoSet r.1 pq) ∧ Consistent r.1 pq ∧
  (∀ pq', pq' ≠ pq → memoSet r.1 pq' = memoSet (effCache st pq).1 pq') ∧
  ((c, m) ∈ memoSet st pq → r.1 = st) ∧
  ((c, m) ∉ memoSet st pq → c ≤ (effCache st pq).2.1 → m ≤ (effCache st pq).2.2 →
    memoSet r.1 pq = memoSet (effCache st pq).1 pq ∪ rectCells c m ∧
    r.1.maxLLCache = (effCache st pq).1.maxLLCache) ∧
  ((c, m) ∉ memoSet st pq →
    ¬(c ≤ (effCache st pq).2.1 ∧ m ≤ (effCache st pq).2.2) →
    memoSet r.1 pq = memoSet (effCache st pq).1 pq ∪
      rectCells (max (effCache st pq).2.1 c) (max (effCache st pq).2.2 m) ∧
    ∃ u1 u2, r.1.maxLLCache = some (pq, u1, u2) ∧
      c ≤ u1 ∧ u1 ≤ max (effCache st pq).2.1 c ∧
      m ≤ u2 ∧ u2 ≤ max (effCache st pq).2.2 m ∧
      rectCells (max (effCache st pq).2.1 c) (max (effCache st pq).2.2 m) ⊆
        memoSet (effCache st pq).1 pq ∪ rectCells u1 u2)

/-- `CallOut` holds of every returning call at this fuel. -/
def CallSpec (ρ : Type) [DecidableEq ρ] (fuel : ℕ) : Prop :=
  ∀ (pq : ρ) st c m r,
    legalCell (c, m) →
    DCSet (memoSet st pq) →
    Consistent st pq →
    llCallM fuel pq st c m = some r →
    CallOut pq st c m r

/-- The verified behaviour of a call sequence whose cells all lie inside the
recorded corner: no fill is ever triggered, so `_max_ll_cache` is untouched
and the keys grow by exactly the union of the cells' dependency rectangles. -/
def ListLeSpec (ρ : Type) [DecidableEq ρ] (fuel : ℕ) : Prop :=
  ∀ (pq : ρ) st cells a b r,
    st.maxLLCache = some (pq, a, b) →
    DCSet (memoSet st pq) → Consistent st pq →
    (∀ x ∈ cells, legalCell x ∧ x.1 ≤ a ∧ x.2 ≤ b) →
    llList fuel pq st cells = some r →
    r.2 = true ∧ r.1.maxLLCache = st.maxLLCache ∧
    memoSet r.1 pq = memoSet st pq ∪ ⋃ x ∈ cells, rectCells x.1 x.2 ∧
    DCSet (memoSet r.1 pq) ∧ Consistent r.1 pq ∧
    (∀ pq', pq' ≠ pq → memoSet r.1 pq' = memoSet st pq')

/-- The verified behaviour of an arbitrary legal call sequence bounded by
`(bound1, bound2)`: the recorded corner only grows, stays within the bound,
and dominates every added key; and every requested cell's rectangle is
filled. -/
def ListGenSpec (ρ : Type) [DecidableEq ρ] (fuel : ℕ) : Prop :=
  ∀ (pq : ρ) st cells t01 t02 bound1 bound2 r,
    st.maxLLCache = some (pq, t01, t02) →
    DCSet (memoSet st pq) → Consistent st pq →
    (∀ x ∈ cells, legalCell x ∧ x.1 ≤ bound1 ∧ x.2 ≤ bound2) →
    t01 ≤ bound1 → t02 ≤ bound2 →
    llList fuel pq st cells = some r →
    r.2 = true ∧
    (∃ u1 u2, r.1.maxLLCache = some (pq, u1, u2) ∧
      t01 ≤ u1 ∧ u1 ≤ bound1 ∧ t02 ≤ u2 ∧ u2 ≤ bound2 ∧
      memoSet r.1 pq ⊆ memoSet st pq ∪ rectCells u1 u2) ∧
    memoSet st pq ∪ (⋃ x ∈ cells, rectCells x.1 x.2) ⊆ memoSet r.1 pq ∧
    DCSet (memoSet r.1 pq) ∧ Consistent r.1 pq ∧
    (∀ pq', pq' ≠ pq → memoSet r.1 pq' = memoSet st pq')

/-- The running componentwise maximum of an access sequence from a starting
corner: `(max c_i, max m_i)` of the accesses (and the start). -/
def cornerFold (init : ℕ × ℕ) (accs : List (ℕ × ℕ)) : ℕ × ℕ :=
  accs.foldl (fun acc x => (max acc.1 x.1, max acc.2 x.2)) init

/-! ## Theorems -/

/-! ### Cells, rectangles and cache-state invariants -/

theorem legalCell_mono {x y : ℕ × ℕ} (h : legalCell x) (h1 : x.1 ≤ y.1)
    (h2 : x.2 ≤ y.2) : legalCell y := by
  rcases h with h | h
  · exact Or.inl (by omega)
  · exact Or.inr (by omega)

theorem legalCell_iff_not_zero (c m : ℕ) : legalCell (c, m) ↔ ¬(c = 0 ∧ m ≤ 1) := by
  unfold legalCell; omega

theorem mem_rectCells {x : ℕ × ℕ} {c m : ℕ} :
    x ∈ rectCells c m ↔ legalCell x ∧ x.1 ≤ c ∧ x.2 ≤ m := Iff.rfl

theorem rectCells_mono {a1 a2 b1 b2 : ℕ} (h1 : a1 ≤ b1) (h2 : a2 ≤ b2) :
    rectCells a1 a2 ⊆ rectCells b1 b2 := by
  rintro x ⟨hx, hx1, hx2⟩
  exact ⟨hx, by omega, by omega⟩

theorem rectCells_zero : rectCells 0 0 = ∅ := by
  ext x
  simp only [mem_rectCells, Set.mem_empty_iff_false, iff_false]
  rintro ⟨hleg, h1, h2⟩
  rcases hleg with h | h <;> omega

theorem mem_rectCells_self {c m : ℕ} (h : legalCell (c, m)) : (c, m) ∈ rectCells c m :=
  ⟨h, le_refl _, le_refl _⟩

theorem DCSet_empty : DCSet ∅ := ⟨fun x hx => absurd hx (by simp), fun x hx => absurd hx (by simp)⟩

theorem DCSet_rect (c m : ℕ) : DCSet (rectCells c m) := by
  refine ⟨fun x hx => hx.1, ?_⟩
  rintro x ⟨hx, hx1, hx2⟩ y hy h1 h2
  exact ⟨hy, by omega, by omega⟩

theorem DCSet_union {A B : Set (ℕ × ℕ)} (hA : DCSet A) (hB : DCSet B) :
    DCSet (A ∪ B) := by
  constructor
  · rintro x (hx | hx)
    · exact hA.1 x hx
    · exact hB.1 x hx
  · rintro x (hx | hx) y hy h1 h2
    · exact Or.inl (hA.2 x hx y hy h1 h2)
    · exact Or.inr (hB.2 x hx y hy h1 h2)

theorem DCSet.rect_subset {S : Set (ℕ × ℕ)} (hS : DCSet S) {x : ℕ × ℕ}
    (hx : x ∈ S) : rectCells x.1 x.2 ⊆ S := by
  rintro y ⟨hy, h1, h2⟩
  exact hS.2 x hx y hy h1 h2

theorem memoSet_fresh {ρ : Type} (pq : ρ) : memoSet (freshLLState ρ) pq = ∅ := by
  ext x
  simp [memoSet, freshLLState]

theorem memoSet_insertMemo_self {ρ : Type} [DecidableEq ρ] (st : LLCacheState ρ)
    (c m : ℕ) (pq : ρ) :
    memoSet (insertMemo st c m pq) pq = memoSet st pq ∪ {(c, m)} := by
  ext x
  rw [insertMemo]
  split_ifs with h
  · simp only [Set.mem_union, Set.mem_singleton_iff]
    constructor
    · exact fun hx => Or.inl hx
    · intro hx
      rcases hx with hx | hx
      · exact hx
      · rw [hx]
        exact h
  · simp only [memoSet, Set.mem_union, Set.mem_singleton_iff, Set.mem_setOf_eq,
      List.mem_cons, Prod.mk.injEq]
    tauto

theorem memoSet_insertMemo_other {ρ : Type} [DecidableEq ρ] (st : LLCacheState ρ)
    (c m : ℕ) (pq pq' : ρ) (h : pq' ≠ pq) :
    memoSet (insertMemo st c m pq) pq' = memoSet st pq' := by
  ext x
  rw [insertMemo]
  split_ifs with hmem
  · rfl
  · simp only [memoSet, Set.mem_setOf_eq, List.mem_cons, Prod.mk.injEq]
    constructor
    · rintro (⟨h1, h2⟩ | hx)
      · exact absurd h2 h
      · exact hx
    · exact Or.inr

theorem insertMemo_maxLLCache {ρ : Type} [DecidableEq ρ] (st : LLCacheState ρ)
    (c m : ℕ) (pq : ρ) : (insertMemo st c m pq).maxLLCache = st.maxLLCache := by
  rw [insertMemo]; split_ifs <;> rfl

theorem mem_memoSet_insertMemo_self {ρ : Type} [DecidableEq ρ]
    (st : LLCacheState ρ) (c m : ℕ) (pq : ρ) :
    (c, m) ∈ memoSet (insertMemo st c m pq) pq := by
  rw [memoSet_insertMemo_self]
  exact Or.inr rfl

theorem effCache_cases {ρ : Type} [DecidableEq ρ] (st : LLCacheState ρ) (pq : ρ) :
    (∃ a b, st.maxLLCache = some (pq, a, b) ∧ effCache st pq = (st, a, b)) ∨
    effCache st pq = (⟨none, []⟩, 0, 0) := by
  rcases hc : st.maxLLCache with _ | ⟨pq', a, b⟩
  · refine Or.inr ?_
    rw [effCache, hc]
  · by_cases h : pq' = pq
    · refine Or.inl ⟨a, b, ?_, ?_⟩
      · rw [h]
      · rw [effCache, hc]
        exact if_pos h
    · refine Or.inr ?_
      rw [effCache, hc]
      exact if_neg h

theorem effCache_of_consistent_mem {ρ : Type} [DecidableEq ρ]
    {st : LLCacheState ρ} {pq : ρ} (hcons : Consistent st pq) {x : ℕ × ℕ}
    (hx : x ∈ memoSet st pq) :
    effCache st pq = (st, (effCache st pq).2.1, (effCache st pq).2.2) ∧
    st.maxLLCache = some (pq, (effCache st pq).2.1, (effCache st pq).2.2) := by
  obtain ⟨a, b, hab⟩ := hcons x hx
  have he : effCache st pq = (st, a, b) := by
    rw [effCache, hab]
    exact if_pos rfl
  rw [he]
  exact ⟨rfl, hab⟩

theorem mem_pyRange {x a b : ℕ} : x ∈ pyRange a b ↔ a ≤ x ∧ x < b := by
  rw [pyRange, List.mem_range'_1]
  omega

theorem mem_fillCells_iff {x : ℕ × ℕ} {t1 t2 c m : ℕ} :
    x ∈ fillCells t1 t2 c m ↔ legalCell x ∧
      ((x.1 ≤ t1 ∧ t2 ≤ x.2 ∧ x.2 ≤ m) ∨
       (x.2 ≤ t2 ∧ t1 ≤ x.1 ∧ x.1 ≤ c) ∨
       (t2 + 1 ≤ x.2 ∧ x.2 ≤ m ∧ t1 + 1 ≤ x.1 ∧ x.1 ≤ c)) := by
  obtain ⟨x1, x2⟩ := x
  simp only [fillCells, List.mem_append, List.mem_flatMap, List.mem_filterMap,
    mem_pyRange, Option.ite_none_right_eq_some, Option.some.injEq, Prod.mk.injEq,
    legalCell]
  constructor
  · rintro ((⟨cx, hcx, mx, hmx, hg, rfl, rfl⟩ | ⟨mx, hmx, cx, hcx, hg, rfl, rfl⟩) |
      ⟨mx, hmx, cx, hcx, hg, rfl, rfl⟩)
    · exact ⟨hg, Or.inl ⟨by omega, by omega, by omega⟩⟩
    · exact ⟨hg, Or.inr (Or.inl ⟨by omega, by omega, by omega⟩)⟩
    · exact ⟨hg, Or.inr (Or.inr ⟨by omega, by omega, by omega, by omega⟩)⟩
  · rintro ⟨hleg, (h | h | h)⟩
    · exact Or.inl (Or.inl ⟨x1, by omega, x2, by omega, hleg, rfl, rfl⟩)
    · exact Or.inl (Or.inr ⟨x2, by omega, x1, by omega, hleg, rfl, rfl⟩)
    · exact Or.inr ⟨x2, by omega, x1, by omega, hleg, rfl, rfl⟩

theorem mem_fillCells_bound {x : ℕ × ℕ} {t1 t2 c m : ℕ}
    (hx : x ∈ fillCells t1 t2 c m) :
    legalCell x ∧ x.1 ≤ max t1 c ∧ x.2 ≤ max t2 m := by
  rw [mem_fillCells_iff] at hx
  obtain ⟨hleg, h⟩ := hx
  exact ⟨hleg, by omega, by omega⟩

theorem corner_mem_fillCells {t1 t2 c m : ℕ} (hleg : legalCell (c, m))
    (hfill : t1 < c ∨ t2 < m) :
    (max t1 c, max t2 m) ∈ fillCells t1 t2 c m := by
  rw [mem_fillCells_iff]
  refine ⟨legalCell_mono hleg (by omega) (by omega), ?_⟩
  simp only []
  omega

theorem mem_computeDeps_legal_le {c m : ℕ} (hleg : legalCell (c, m))
    (hnb : ¬((c = 1 ∧ m = 0) ∨ (c = 0 ∧ m = 2)))
    {y : ℕ × ℕ} (hy : y ∈ computeDeps c m) :
    legalCell y ∧ y.1 ≤ c ∧ y.2 ≤ m ∧ y ≠ (c, m) := by
  obtain ⟨y1, y2⟩ := y
  rw [legalCell] at hleg
  simp only [computeDeps, List.mem_append, List.mem_flatMap, List.mem_range,
    List.mem_ite_nil_right, List.mem_cons, List.not_mem_nil, or_false,
    List.mem_singleton, Prod.mk.injEq] at hy
  rcases hy with ⟨hm, rfl, rfl⟩ | ⟨cx, hcx, mx, hmx, ⟨hg1, hg2⟩, (⟨rfl, rfl⟩ | ⟨rfl, rfl⟩)⟩
  · refine ⟨?_, by omega, by omega, ?_⟩
    · rw [legalCell]
      simp only [] at hnb ⊢
      omega
    · intro hcon
      rw [Prod.mk.injEq] at hcon
      omega
  · refine ⟨hg1, by omega, by omega, ?_⟩
    intro hcon
    rw [Prod.mk.injEq] at hcon
    rcases hg2 with hg2 | hg2 <;> omega
  · refine ⟨hg2, by omega, by omega, ?_⟩
    intro hcon
    rw [Prod.mk.injEq] at hcon
    rcases hg1 with hg1 | hg1 <;> omega

theorem mem_computeDeps_of_lt {c m : ℕ} {y : ℕ × ℕ} (hleg : legalCell y)
    (h1 : y.1 ≤ c) (h2 : y.2 ≤ m) (hne : y ≠ (c, m)) : y ∈ computeDeps c m := by
  obtain ⟨y1, y2⟩ := y
  rw [legalCell] at hleg
  simp only [] at hleg h1 h2
  have hne' : ¬(y1 = c ∧ y2 = m) := by
    intro hcon
    exact hne (by rw [hcon.1, hcon.2])
  simp only [computeDeps, List.mem_append, List.mem_flatMap, List.mem_range,
    List.mem_ite_nil_right, List.mem_cons, List.not_mem_nil, or_false,
    List.mem_singleton, Prod.mk.injEq]
  by_cases hcomp : 0 < c - y1 ∨ 1 < m - y2
  · exact Or.inr ⟨y1, by omega, y2, by omega, ⟨hleg, hcomp⟩, Or.inl ⟨rfl, rfl⟩⟩
  · refine Or.inl ⟨by omega, by omega, by omega⟩

theorem computeDeps_ne_nil {c m : ℕ} (hleg : legalCell (c, m))
    (hnb : ¬((c = 1 ∧ m = 0) ∨ (c = 0 ∧ m = 2))) : computeDeps c m ≠ [] := by
  rw [legalCell] at hleg
  simp only [] at hleg
  rcases Nat.eq_zero_or_pos m with hm | hm
  · subst hm
    have hc : 2 ≤ c := by omega
    refine List.ne_nil_of_mem (show ((1 : ℕ), (0 : ℕ)) ∈ computeDeps c 0 from ?_)
    exact mem_computeDeps_of_lt (by rw [legalCell]; left; omega)
      (by omega) (by omega) (by intro hcon; rw [Prod.mk.injEq] at hcon; omega)
  · by_cases hc : 0 < c
    · refine List.ne_nil_of_mem (show (c, m - 1) ∈ computeDeps c m from ?_)
      exact mem_computeDeps_of_lt (by rw [legalCell]; left; omega)
        (by omega) (by omega) (by intro hcon; rw [Prod.mk.injEq] at hcon; omega)
    · have hm3 : 3 ≤ m := by omega
      refine List.ne_nil_of_mem (show ((0 : ℕ), (2 : ℕ)) ∈ computeDeps c m from ?_)
      exact mem_computeDeps_of_lt (by rw [legalCell]; right; omega)
        (by omega) (by omega) (by intro hcon; rw [Prod.mk.injEq] at hcon; omega)

theorem biUnion_computeDeps {c m : ℕ} (hleg : legalCell (c, m))
    (hnb : ¬((c = 1 ∧ m = 0) ∨ (c = 0 ∧ m = 2))) :
    (⋃ x ∈ computeDeps c m, rectCells x.1 x.2) ∪ {(c, m)} = rectCells c m := by
  ext y
  simp only [Set.mem_union, Set.mem_iUnion, Set.mem_singleton_iff, exists_prop]
  constructor
  · rintro (⟨x, hx, hy⟩ | rfl)
    · obtain ⟨hlx, hx1, hx2, -⟩ := mem_computeDeps_legal_le hleg hnb hx
      obtain ⟨hly, hy1, hy2⟩ := hy
      exact ⟨hly, by omega, by omega⟩
    · exact mem_rectCells_self hleg
  · intro hy
    by_cases hne : y = (c, m)
    · exact Or.inr hne
    · obtain ⟨hly, hy1, hy2⟩ := hy
      exact Or.inl ⟨y, mem_computeDeps_of_lt hly hy1 hy2 hne,
        mem_rectCells_self hly⟩


theorem biUnion_list_cons {α β : Type} (x : α) (l : List α) (f : α → Set β) :
    (⋃ y ∈ (x :: l), f y) = f x ∪ ⋃ y ∈ l, f y := by
  ext z
  simp only [Set.mem_iUnion, Set.mem_union, List.mem_cons, exists_prop]
  constructor
  · rintro ⟨y, (rfl | hy), hz⟩
    · exact Or.inl hz
    · exact Or.inr ⟨y, hy, hz⟩
  · rintro (hz | ⟨y, hy, hz⟩)
    · exact ⟨x, Or.inl rfl, hz⟩
    · exact ⟨y, Or.inr hy, hz⟩

/-- Calls whose cells all lie inside the recorded corner trigger no fill:
`_max_ll_cache` is untouched and the keys grow by exactly the union of the
cells' dependency rectangles. -/
theorem llList_le_of_call {ρ : Type} [DecidableEq ρ] {fuel : ℕ}
    (hcall : CallSpec ρ fuel) : ListLeSpec ρ fuel := by
  intro pq st cells a b r hcache hdc hcons hcells hres
  induction cells generalizing st r with
  | nil =>
    rw [llList] at hres
    obtain rfl : (st, true) = r := Option.some_injective _ hres
    refine ⟨rfl, rfl, ?_, hdc, hcons, fun pq' _ => rfl⟩
    simp
  | cons x rest ih =>
    obtain ⟨x1, x2⟩ := x
    have hx := hcells (x1, x2) (List.mem_cons_self _ _)
    rw [llList] at hres
    rcases hstep : llCallM fuel pq st x1 x2 with _ | ⟨st', bb⟩
    · rw [hstep] at hres
      cases hres
    · rw [hstep] at hres
      have hco := hcall pq st x1 x2 (st', bb) hx.1 hdc hcons hstep
      obtain ⟨hbb, hdc', hcons', hoth, hhit, hnofill, hfill⟩ := hco
      subst hbb
      have heff : effCache st pq = (st, a, b) := by
        rw [effCache, hcache]
        exact if_pos rfl
    -- after a successful step, the tail runs from st'
      by_cases hmem : (x1, x2) ∈ memoSet st pq
      · have hst' : st' = st := hhit hmem
        rw [hst'] at hres
        obtain ⟨hr2, hmax, hmemo, hdcf, hconsf, hothf⟩ :=
          ih st r hcache hdc hcons (fun y hy => hcells y (List.mem_cons_of_mem _ hy)) hres
        refine ⟨hr2, hmax, ?_, hdcf, hconsf, hothf⟩
        rw [hmemo, biUnion_list_cons]
        have habs : rectCells x1 x2 ⊆ memoSet st pq := hdc.rect_subset hmem
        ext z
        simp only [Set.mem_union]
        constructor
        · rintro (hz | hz)
          · exact Or.inl hz
          · exact Or.inr (Or.inr hz)
        · rintro (hz | hz | hz)
          · exact Or.inl hz
          · exact Or.inl (habs hz)
          · exact Or.inr hz
      · obtain ⟨hmemo', hmax'⟩ := hnofill hmem
          (by rw [heff]; exact hx.2.1) (by rw [heff]; exact hx.2.2)
        rw [heff] at hmemo' hmax'
        simp only [] at hmemo' hmax'
        obtain ⟨hr2, hmax, hmemo, hdcf, hconsf, hothf⟩ :=
          ih st' r (by rw [hmax', hcache]) hdc' hcons'
            (fun y hy => hcells y (List.mem_cons_of_mem _ hy)) hres
        refine ⟨hr2, by rw [hmax, hmax'], ?_, hdcf, hconsf, ?_⟩
        · rw [hmemo, hmemo', biUnion_list_cons]
          ext z
          simp only [Set.mem_union]
          tauto
        · intro pq' hpq'
          rw [hothf pq' hpq', hoth pq' hpq', heff]

/-- An arbitrary bounded legal call sequence: the recorded corner only grows,
stays within the bound, and dominates every added key (the key step is that a
nested fill's corner cannot already be cached — downward closure would then
put the requested cell itself in the cache — so the fill's recorded corner
ends at or above the previous corner). -/
theorem llList_gen_of_call {ρ : Type} [DecidableEq ρ] {fuel : ℕ}
    (hcall : CallSpec ρ fuel) : ListGenSpec ρ fuel := by
  intro pq st cells t01 t02 bound1 bound2 r hcache hdc hcons hcells hb1 hb2 hres
  induction cells generalizing st t01 t02 r with
  | nil =>
    rw [llList] at hres
    obtain rfl : (st, true) = r := Option.some_injective _ hres
    refine ⟨rfl, ⟨t01, t02, hcache, le_refl _, hb1, le_refl _, hb2,
      Set.subset_union_left⟩, ?_, hdc, hcons, fun pq' _ => rfl⟩
    simp
  | cons x rest ih =>
    obtain ⟨x1, x2⟩ := x
    have hx := hcells (x1, x2) (List.mem_cons_self _ _)
    have htail : ∀ y ∈ rest, legalCell y ∧ y.1 ≤ bound1 ∧ y.2 ≤ bound2 :=
      fun y hy => hcells y (List.mem_cons_of_mem _ hy)
    rw [llList] at hres
    rcases hstep : llCallM fuel pq st x1 x2 with _ | ⟨st', bb⟩
    · rw [hstep] at hres
      cases hres
    · rw [hstep] at hres
      obtain ⟨hbb, hdc', hcons', hoth, hhit, hnofill, hfill⟩ :=
        hcall pq st x1 x2 (st', bb) hx.1 hdc hcons hstep
      subst hbb
      have heff : effCache st pq = (st, t01, t02) := by
        rw [effCache, hcache]
        exact if_pos rfl
      by_cases hmem : (x1, x2) ∈ memoSet st pq
      · have hst' : st' = st := hhit hmem
        rw [hst'] at hres
        obtain ⟨hr2, ⟨u1, u2, hucache, hu11, hu12, hu21, hu22, husub⟩, hlow, hdcf,
          hconsf, hothf⟩ := ih st t01 t02 r hcache hdc hcons htail hb1 hb2 hres
        refine ⟨hr2, ⟨u1, u2, hucache, hu11, hu12, hu21, hu22, husub⟩, ?_, hdcf,
          hconsf, hothf⟩
        rw [biUnion_list_cons]
        have habs : rectCells x1 x2 ⊆ memoSet st pq := hdc.rect_subset hmem
        rintro z (hz | hz | hz)
        · exact hlow (Or.inl hz)
        · exact hlow (Or.inl (habs hz))
        · exact hlow (Or.inr hz)
      · by_cases hle : x1 ≤ t01 ∧ x2 ≤ t02
        · obtain ⟨hmemo', hmax'⟩ := hnofill hmem
            (by rw [heff]; exact hle.1) (by rw [heff]; exact hle.2)
          rw [heff] at hmemo' hmax'
          simp only [] at hmemo' hmax'
          obtain ⟨hr2, ⟨u1, u2, hucache, hu11, hu12, hu21, hu22, husub⟩, hlow, hdcf,
            hconsf, hothf⟩ := ih st' t01 t02 r (by rw [hmax', hcache]) hdc' hcons'
              htail hb1 hb2 hres
          refine ⟨hr2, ⟨u1, u2, hucache, hu11, hu12, hu21, hu22, ?_⟩, ?_, hdcf,
            hconsf, ?_⟩
          · intro z hz
            rcases husub hz with hz' | hz'
            · rw [hmemo'] at hz'
              rcases hz' with hz' | hz'
              · exact Or.inl hz'
              · refine Or.inr (rectCells_mono (by omega) (by omega) hz')
            · exact Or.inr hz'
          · rw [biUnion_list_cons]
            rintro z (hz | hz | hz)
            · exact hlow (Or.inl (by rw [hmemo']; exact Or.inl hz))
            · exact hlow (Or.inl (by rw [hmemo']; exact Or.inr hz))
            · exact hlow (Or.inr hz)
          · intro pq' hpq'
            rw [hothf pq' hpq', hoth pq' hpq', heff]
        · obtain ⟨hmemo', u1', u2', hcache', hc1, hc2, hm1, hm2, hstar⟩ :=
            hfill hmem (by rw [heff]; exact hle)
          rw [heff] at hmemo' hc2 hm2 hstar
          simp only [] at hmemo' hc2 hm2 hstar
          have hcorner_leg : legalCell (max t01 x1, max t02 x2) :=
            legalCell_mono hx.1 (by omega) (by omega)
          have hcorner := hstar (mem_rectCells_self hcorner_leg)
          have ht0u : t01 ≤ u1' ∧ t02 ≤ u2' := by
            rcases hcorner with hcor | hcor
            · exact absurd (hdc.2 _ hcor (x1, x2) hx.1 (by omega) (by omega)) hmem
            · obtain ⟨-, hcor1, hcor2⟩ := hcor
              constructor <;> omega
          obtain ⟨hr2, ⟨v1, v2, hvcache, hv11, hv12, hv21, hv22, hvsub⟩, hlow, hdcf,
            hconsf, hothf⟩ := ih st' u1' u2' r hcache' hdc' hcons' htail
              (by omega) (by omega) hres
          refine ⟨hr2, ⟨v1, v2, hvcache, by omega, hv12, by omega, hv22, ?_⟩, ?_,
            hdcf, hconsf, ?_⟩
          · intro z hz
            rcases hvsub hz with hz' | hz'
            · rw [hmemo'] at hz'
              rcases hz' with hz' | hz'
              · exact Or.inl hz'
              · rcases hstar hz' with hz'' | hz''
                · exact Or.inl hz''
                · exact Or.inr (rectCells_mono (by omega) (by omega) hz'')
            · exact Or.inr hz'
          · rw [biUnion_list_cons]
            rintro z (hz | hz | hz)
            · exact hlow (Or.inl (by rw [hmemo']; exact Or.inl hz))
            · refine hlow (Or.inl (by
                rw [hmemo']
                exact Or.inr (rectCells_mono (by omega) (by omega) hz)))
            · exact hlow (Or.inr hz)
          · intro pq' hpq'
            rw [hothf pq' hpq', hoth pq' hpq', heff]

theorem rectCells_base {c m : ℕ} (h : (c = 1 ∧ m = 0) ∨ (c = 0 ∧ m = 2)) :
    rectCells c m = {(c, m)} := by
  ext ⟨x1, x2⟩
  simp only [mem_rectCells, legalCell, Set.mem_singleton_iff, Prod.mk.injEq]
  rcases h with ⟨rfl, rfl⟩ | ⟨rfl, rfl⟩ <;> omega

/-- Running the three bulk-fill loops from tracker `(c, m)`: the run succeeds
with the keys grown by exactly the rectangle up to the fill corner, and the
final recorded corner dominates the previous tracker and sits inside the
corner, every added key below it. -/
theorem llList_fill_run {ρ : Type} [DecidableEq ρ] {f : ℕ} (ih : CallSpec ρ f)
    {pq : ρ} {st1 : LLCacheState ρ} {t1 t2 c m : ℕ} {st2 : LLCacheState ρ}
    {b2 : Bool}
    (hleg : legalCell (c, m)) (hdc1 : DCSet (memoSet st1 pq))
    (hfc : t1 < c ∨ t2 < m)
    (hrun : llList f pq ⟨some (pq, c, m), st1.memo⟩ (fillCells t1 t2 c m) =
      some (st2, b2)) :
    b2 = true ∧
    memoSet st2 pq = memoSet st1 pq ∪ rectCells (max t1 c) (max t2 m) ∧
    (∃ u1 u2, st2.maxLLCache = some (pq, u1, u2) ∧
      c ≤ u1 ∧ u1 ≤ max t1 c ∧ m ≤ u2 ∧ u2 ≤ max t2 m ∧
      rectCells (max t1 c) (max t2 m) ⊆ memoSet st1 pq ∪ rectCells u1 u2) ∧
    DCSet (memoSet st2 pq) ∧ Consistent st2 pq ∧
    (c, m) ∈ memoSet st2 pq ∧
    (∀ pq', pq' ≠ pq → memoSet st2 pq' = memoSet st1 pq') := by
  have hcons' : Consistent (⟨some (pq, c, m), st1.memo⟩ : LLCacheState ρ) pq :=
    fun x _ => ⟨c, m, rfl⟩
  have hcells : ∀ x ∈ fillCells t1 t2 c m,
      legalCell x ∧ x.1 ≤ max t1 c ∧ x.2 ≤ max t2 m :=
    fun x hx => mem_fillCells_bound hx
  obtain ⟨hb2, ⟨u1, u2, hucach, hcu1, hu1b, hmu2, hu2b, hsub⟩, hlow, hdc2, hcons2,
    hoth2⟩ := llList_gen_of_call ih pq ⟨some (pq, c, m), st1.memo⟩
      (fillCells t1 t2 c m) c m (max t1 c) (max t2 m) (st2, b2) rfl hdc1 hcons'
      hcells (le_max_right _ _) (le_max_right _ _) hrun
  have hcornerfc := corner_mem_fillCells hleg hfc
  have hrectsub : rectCells (max t1 c) (max t2 m) ⊆ memoSet st2 pq := by
    intro z hz
    refine hlow (Or.inr ?_)
    exact Set.mem_iUnion₂.mpr ⟨(max t1 c, max t2 m), hcornerfc, hz⟩
  have hrsub : memoSet st2 pq ⊆ memoSet st1 pq ∪ rectCells (max t1 c) (max t2 m) := by
    intro z hz
    rcases hsub hz with h | h
    · exact Or.inl h
    · exact Or.inr (rectCells_mono hu1b hu2b h)
  refine ⟨hb2, Set.Subset.antisymm hrsub ?_, ⟨u1, u2, hucach, hcu1, hu1b, hmu2,
    hu2b, fun z hz => hsub (hrectsub hz)⟩, hdc2, hcons2,
    hrectsub ⟨hleg, le_max_right _ _, le_max_right _ _⟩,
    fun pq' hpq' => hoth2 pq' hpq'⟩
  rintro z (hz | hz)
  · exact hlow (Or.inl hz)
  · exact hrectsub hz

/-- The body of one call satisfies its input/output relation, at every fuel. -/
theorem llCall_spec {ρ : Type} [DecidableEq ρ] : ∀ fuel, CallSpec ρ fuel := by
  intro fuel
  induction fuel with
  | zero =>
    intro pq st c m r hleg hdc hcons hres
    rw [llCallM] at hres
    cases hres
  | succ f ih =>
    intro pq st c m r hleg hdc hcons hres
    rw [llCallM] at hres
    by_cases hmem : ((c, m), pq) ∈ st.memo
    · rw [if_pos hmem] at hres
      obtain rfl : ((st, true) : LLCacheState ρ × Bool) = r :=
        Option.some_injective _ hres
      obtain ⟨a, b, hab⟩ := hcons (c, m) hmem
      have he : effCache st pq = (st, a, b) := by
        rw [effCache, hab]
        exact if_pos rfl
      refine ⟨rfl, hdc, hcons, ?_, fun _ => rfl, ?_, ?_⟩
      · intro pq' hpq'
        rw [he]
      · intro hnm
        exact absurd hmem hnm
      · intro hnm _
        exact absurd hmem hnm
    · rw [if_neg hmem] at hres
      rcases effCache_cases st pq with ⟨a, b, hab, he⟩ | he
      · rw [he] at hres
        simp only [] at hres
        by_cases hfc : a < c ∨ b < m
        · rw [if_pos hfc] at hres
          rcases hrun : llList f pq ⟨some (pq, c, m), st.memo⟩ (fillCells a b c m)
            with _ | ⟨st2, b2⟩
          · rw [hrun] at hres
            cases hres
          · rw [hrun] at hres
            obtain ⟨hb2, hmemo2, ⟨u1, u2, hucach, hcu1, hu1b, hmu2, hu2b, hstar⟩,
              hdc2, hcons2, hcm2, hoth2⟩ := llList_fill_run ih hleg hdc hfc hrun
            subst hb2
            simp only [] at hres
            rcases htr : llCallM f pq st2 c m with _ | ⟨st3, b3⟩
            · rw [htr] at hres
              cases hres
            · rw [htr] at hres
              obtain ⟨hb3, -, -, -, hhit3, -, -⟩ :=
                ih pq st2 c m (st3, b3) hleg hdc2 hcons2 htr
              have hb3' : b3 = true := hb3
              subst hb3'
              have hst3 : st3 = st2 := hhit3 hcm2
              rw [hst3] at hres
              simp only [] at hres
              obtain rfl : ((insertMemo st2 c m pq, true) : LLCacheState ρ × Bool) = r :=
                Option.some_injective _ hres
              have hmr : memoSet (insertMemo st2 c m pq) pq =
                  memoSet st pq ∪ rectCells (max a c) (max b m) := by
                rw [memoSet_insertMemo_self,
                  Set.union_eq_self_of_subset_right (Set.singleton_subset_iff.mpr hcm2),
                  hmemo2]
              refine ⟨rfl, ?_, ?_, ?_, ?_, ?_, ?_⟩
              · show DCSet (memoSet (insertMemo st2 c m pq) pq)
                rw [hmr]
                exact DCSet_union hdc (DCSet_rect _ _)
              · intro x hx
                exact ⟨u1, u2, by rw [insertMemo_maxLLCache]; exact hucach⟩
              · intro pq' hpq'
                show memoSet (insertMemo st2 c m pq) pq' = memoSet (effCache st pq).1 pq'
                rw [memoSet_insertMemo_other st2 c m pq pq' hpq', hoth2 pq' hpq', he]
              · intro hx
                exact absurd hx hmem
              · intro _ h1 h2
                exfalso
                rw [he] at h1 h2
                simp only [] at h1 h2
                omega
              · intro _ _
                rw [he]
                refine ⟨hmr, u1, u2, ?_, hcu1, hu1b, hmu2, hu2b, hstar⟩
                show (insertMemo st2 c m pq).maxLLCache = some (pq, u1, u2)
                rw [insertMemo_maxLLCache]
                exact hucach
        · rw [if_neg hfc] at hres
          have hzero : ¬(c = 0 ∧ m ≤ 1) := (legalCell_iff_not_zero c m).mp hleg
          rw [if_neg hzero] at hres
          have hnf : c ≤ a ∧ m ≤ b := by omega
          by_cases hbase : (c = 1 ∧ m = 0) ∨ (c = 0 ∧ m = 2)
          · rw [if_pos hbase] at hres
            obtain rfl : ((insertMemo st c m pq, true) : LLCacheState ρ × Bool) = r :=
              Option.some_injective _ hres
            have hmr : memoSet (insertMemo st c m pq) pq =
                memoSet st pq ∪ rectCells c m := by
              rw [memoSet_insertMemo_self, rectCells_base hbase]
            refine ⟨rfl, ?_, ?_, ?_, ?_, ?_, ?_⟩
            · show DCSet (memoSet (insertMemo st c m pq) pq)
              rw [hmr]
              exact DCSet_union hdc (DCSet_rect _ _)
            · intro x hx
              exact ⟨a, b, by rw [insertMemo_maxLLCache]; exact hab⟩
            · intro pq' hpq'
              show memoSet (insertMemo st c m pq) pq' = memoSet (effCache st pq).1 pq'
              rw [memoSet_insertMemo_other st c m pq pq' hpq', he]
            · intro hx
              exact absurd hx hmem
            · intro _ _ _
              rw [he]
              refine ⟨hmr, ?_⟩
              show (insertMemo st c m pq).maxLLCache = (st, a, b).1.maxLLCache
              rw [insertMemo_maxLLCache]
            · intro _ hcon
              exfalso
              rw [he] at hcon
              simp only [] at hcon
              omega
          · rw [if_neg hbase] at hres
            rcases hrun : llList f pq st (computeDeps c m) with _ | ⟨st2, b2⟩
            · rw [hrun] at hres
              cases hres
            · rw [hrun] at hres
              have hcells : ∀ x ∈ computeDeps c m,
                  legalCell x ∧ x.1 ≤ a ∧ x.2 ≤ b := by
                intro x hx
                obtain ⟨h1, h2, h3, -⟩ := mem_computeDeps_legal_le hleg hbase hx
                exact ⟨h1, by omega, by omega⟩
              obtain ⟨hb2, hmax2, hmemo2, hdc2, hcons2, hoth2⟩ :=
                llList_le_of_call ih pq st (computeDeps c m) a b (st2, b2) hab hdc
                  hcons hcells hrun
              have hb2' : b2 = true := hb2
              subst hb2'
              simp only [] at hmax2 hmemo2 hoth2
              simp only [] at hres
              rw [if_neg (computeDeps_ne_nil hleg hbase)] at hres
              obtain rfl : ((insertMemo st2 c m pq, true) : LLCacheState ρ × Bool) = r :=
                Option.some_injective _ hres
              have hmr : memoSet (insertMemo st2 c m pq) pq =
                  memoSet st pq ∪ rectCells c m := by
                rw [memoSet_insertMemo_self, hmemo2, Set.union_assoc,
                  biUnion_computeDeps hleg hbase]
              refine ⟨rfl, ?_, ?_, ?_, ?_, ?_, ?_⟩
              · show DCSet (memoSet (insertMemo st2 c m pq) pq)
                rw [hmr]
                exact DCSet_union hdc (DCSet_rect _ _)
              · intro x hx
                exact ⟨a, b, by rw [insertMemo_maxLLCache, hmax2]; exact hab⟩
              · intro pq' hpq'
                show memoSet (insertMemo st2 c m pq) pq' = memoSet (effCache st pq).1 pq'
                rw [memoSet_insertMemo_other st2 c m pq pq' hpq', hoth2 pq' hpq', he]
              · intro hx
                exact absurd hx hmem
              · intro _ _ _
                rw [he]
                refine ⟨hmr, ?_⟩
                show (insertMemo st2 c m pq).maxLLCache = (st, a, b).1.maxLLCache
                rw [insertMemo_maxLLCache, hmax2]
              · intro _ hcon
                exfalso
                rw [he] at hcon
                simp only [] at hcon
                omega
      · rw [he] at hres
        simp only [] at hres
        have hempty : ∀ pq' : ρ, memoSet (⟨none, []⟩ : LLCacheState ρ) pq' = ∅ := by
          intro pq'
          ext x
          simp [memoSet]
        have hfc : (0 : ℕ) < c ∨ (0 : ℕ) < m := by
          rcases hleg with h | h
          · exact Or.inl h
          · exact Or.inr (by omega)
        rw [if_pos hfc] at hres
        rcases hrun : llList f pq ⟨some (pq, c, m), []⟩ (fillCells 0 0 c m)
          with _ | ⟨st2, b2⟩
        · rw [hrun] at hres
          cases hres
        · rw [hrun] at hres
          have hdcb : DCSet (memoSet (⟨none, []⟩ : LLCacheState ρ) pq) := by
            rw [hempty pq]
            exact DCSet_empty
          obtain ⟨hb2, hmemo2, ⟨u1, u2, hucach, hcu1, hu1b, hmu2, hu2b, hstar⟩,
            hdc2, hcons2, hcm2, hoth2⟩ := llList_fill_run ih hleg hdcb hfc hrun
          subst hb2
          simp only [] at hres
          rcases htr : llCallM f pq st2 c m with _ | ⟨st3, b3⟩
          · rw [htr] at hres
            cases hres
          · rw [htr] at hres
            obtain ⟨hb3, -, -, -, hhit3, -, -⟩ :=
              ih pq st2 c m (st3, b3) hleg hdc2 hcons2 htr
            have hb3' : b3 = true := hb3
            subst hb3'
            have hst3 : st3 = st2 := hhit3 hcm2
            rw [hst3] at hres
            simp only [] at hres
            obtain rfl : ((insertMemo st2 c m pq, true) : LLCacheState ρ × Bool) = r :=
              Option.some_injective _ hres
            have hmr : memoSet (insertMemo st2 c m pq) pq =
                memoSet (⟨none, []⟩ : LLCacheState ρ) pq ∪
                  rectCells (max 0 c) (max 0 m) := by
              rw [memoSet_insertMemo_self,
                Set.union_eq_self_of_subset_right (Set.singleton_subset_iff.mpr hcm2),
                hmemo2]
            refine ⟨rfl, ?_, ?_, ?_, ?_, ?_, ?_⟩
            · show DCSet (memoSet (insertMemo st2 c m pq) pq)
              rw [hmr, hempty pq]
              exact DCSet_union DCSet_empty (DCSet_rect _ _)
            · intro x hx
              exact ⟨u1, u2, by rw [insertMemo_maxLLCache]; exact hucach⟩
            · intro pq' hpq'
              show memoSet (insertMemo st2 c m pq) pq' = memoSet (effCache st pq).1 pq'
              rw [memoSet_insertMemo_other st2 c m pq pq' hpq', hoth2 pq' hpq', he]
            · intro hx
              exact absurd hx hmem
            · intro _ h1 h2
              exfalso
              rw [he] at h1 h2
              simp only [] at h1 h2
              omega
            · intro _ _
              rw [he]
              refine ⟨hmr, u1, u2, ?_, hcu1, hu1b, hmu2, hu2b, hstar⟩
              show (insertMemo st2 c m pq).maxLLCache = some (pq, u1, u2)
              rw [insertMemo_maxLLCache]
              exact hucach

theorem cornerFold_bound :
    ∀ (cells : List (ℕ × ℕ)) (a : ℕ × ℕ),
      (a.1 ≤ (cornerFold a cells).1 ∧ a.2 ≤ (cornerFold a cells).2) ∧
      ∀ x ∈ cells, x.1 ≤ (cornerFold a cells).1 ∧ x.2 ≤ (cornerFold a cells).2 := by
  intro cells
  induction cells with
  | nil =>
    intro a
    exact ⟨⟨le_refl _, le_refl _⟩, fun x hx => absurd hx (List.not_mem_nil x)⟩
  | cons y rest ih =>
    intro a
    obtain ⟨⟨h1, h2⟩, hall⟩ := ih (max a.1 y.1, max a.2 y.2)
    refine ⟨⟨le_trans (le_max_left _ _) h1, le_trans (le_max_left _ _) h2⟩, ?_⟩
    intro x hx
    rcases List.mem_cons.mp hx with rfl | hx
    · exact ⟨le_trans (le_max_right _ _) h1, le_trans (le_max_right _ _) h2⟩
    · exact hall x hx

theorem cornerFold_legal {accs : List (ℕ × ℕ)} (hne : accs ≠ [])
    (hleg : ∀ x ∈ accs, legalCell x) : legalCell (cornerFold (0, 0) accs) := by
  obtain ⟨y, rest, rfl⟩ := List.exists_cons_of_ne_nil hne
  have h := (cornerFold_bound (y :: rest) (0, 0)).2 y (List.mem_cons_self _ _)
  exact legalCell_mono (hleg y (List.mem_cons_self _ _)) h.1 h.2

theorem rectState_fresh {ρ : Type} (pq : ρ) : RectState (freshLLState ρ) pq (0, 0) := by
  refine ⟨Or.inr ⟨rfl, rfl, rfl⟩, ?_, fun pq' _ => memoSet_fresh pq'⟩
  show memoSet (freshLLState ρ) pq = rectCells 0 0
  rw [memoSet_fresh, rectCells_zero]

/-- One call from a filled-rectangle state at a legal cell succeeds and leaves
the state filled exactly up to the componentwise maximum of the old corner and
the requested cell. -/
theorem rectState_step {ρ : Type} [DecidableEq ρ] {fuel : ℕ} {pq : ρ}
    {st : LLCacheState ρ} {T1 T2 c m : ℕ} {r : LLCacheState ρ × Bool}
    (hrs : RectState st pq (T1, T2)) (hleg : legalCell (c, m))
    (hres : llCallM fuel pq st c m = some r) :
    r.2 = true ∧ RectState r.1 pq (max T1 c, max T2 m) := by
  obtain ⟨hcache, hmemo, hoth⟩ := hrs
  simp only [] at hcache hmemo
  have hdc : DCSet (memoSet st pq) := by
    rw [hmemo]
    exact DCSet_rect _ _
  have hcons : Consistent st pq := by
    rcases hcache with hc | ⟨hc, hT, hm⟩
    · exact fun x _ => ⟨T1, T2, hc⟩
    · intro x hx
      exfalso
      have hx' : (x, pq) ∈ st.memo := hx
      rw [hm] at hx'
      exact absurd hx' (List.not_mem_nil _)
  obtain ⟨hr2, hdc', hcons', hoth', hhit, hnofill, hfill⟩ :=
    llCall_spec fuel pq st c m r hleg hdc hcons hres
  by_cases hmem : (c, m) ∈ memoSet st pq
  · have hr1 : r.1 = st := hhit hmem
    have hcm : c ≤ T1 ∧ m ≤ T2 := by
      rw [hmemo] at hmem
      exact ⟨hmem.2.1, hmem.2.2⟩
    have hmax1 : max T1 c = T1 := max_eq_left hcm.1
    have hmax2 : max T2 m = T2 := max_eq_left hcm.2
    refine ⟨hr2, ?_⟩
    rw [hmax1, hmax2, hr1]
    exact ⟨hcache, hmemo, hoth⟩
  · rcases hcache with hc | ⟨hc, hT, hm⟩
    · have he : effCache st pq = (st, T1, T2) := by
        rw [effCache, hc]
        exact if_pos rfl
      have hnle : ¬(c ≤ T1 ∧ m ≤ T2) := by
        intro hcon
        exact hmem (by rw [hmemo]; exact ⟨hleg, hcon.1, hcon.2⟩)
      obtain ⟨hmemo', u1, u2, hucach, hcu1, hu1b, hmu2, hu2b, hstar⟩ :=
        hfill hmem (by rw [he]; exact hnle)
      rw [he] at hmemo' hu1b hu2b hstar
      simp only [] at hmemo' hu1b hu2b hstar
      have hclegal : legalCell (max T1 c, max T2 m) :=
        legalCell_mono hleg (le_max_right _ _) (le_max_right _ _)
      have hueq : u1 = max T1 c ∧ u2 = max T2 m := by
        rcases hstar (mem_rectCells_self hclegal) with hcor | hcor
        · rw [hmemo] at hcor
          exfalso
          obtain ⟨-, h1, h2⟩ := hcor
          simp only [] at h1 h2
          omega
        · obtain ⟨-, h1, h2⟩ := hcor
          simp only [] at h1 h2
          constructor <;> omega
      obtain ⟨rfl, rfl⟩ := hueq
      refine ⟨hr2, Or.inl hucach, ?_, ?_⟩
      · rw [hmemo', hmemo]
        exact Set.union_eq_self_of_subset_left
          (rectCells_mono (le_max_left _ _) (le_max_left _ _))
      · intro pq' hpq'
        rw [hoth' pq' hpq', he]
        exact hoth pq' hpq'
    · rw [Prod.mk.injEq] at hT
      obtain ⟨rfl, rfl⟩ := hT
      have he : effCache st pq = (⟨none, []⟩, 0, 0) := by
        rw [effCache, hc]
      have hnle : ¬(c ≤ (0 : ℕ) ∧ m ≤ (0 : ℕ)) := by
        rcases hleg with h | h <;> omega
      obtain ⟨hmemo', u1, u2, hucach, hcu1, hu1b, hmu2, hu2b, hstar⟩ :=
        hfill hmem (by rw [he]; exact hnle)
      rw [he] at hmemo' hu1b hu2b hstar
      simp only [] at hmemo' hu1b hu2b hstar
      have hemp : ∀ pq' : ρ, memoSet (⟨none, []⟩ : LLCacheState ρ) pq' = ∅ := by
        intro pq'
        ext x
        simp [memoSet]
      have hclegal : legalCell (max 0 c, max 0 m) :=
        legalCell_mono hleg (le_max_right _ _) (le_max_right _ _)
      have hueq : u1 = max 0 c ∧ u2 = max 0 m := by
        rcases hstar (mem_rectCells_self hclegal) with hcor | hcor
        · rw [hemp pq] at hcor
          exact absurd hcor (Set.not_mem_empty _)
        · obtain ⟨-, h1, h2⟩ := hcor
          simp only [] at h1 h2
          constructor <;> omega
      obtain ⟨rfl, rfl⟩ := hueq
      refine ⟨hr2, Or.inl hucach, ?_, ?_⟩
      · rw [hmemo', hemp pq]
        exact Set.empty_union _
      · intro pq' hpq'
        rw [hoth' pq' hpq', he]
        exact hemp pq'

/-- A sequence of successful calls from a filled-rectangle state leaves the
state filled exactly up to the running componentwise maximum. -/
theorem rectState_list {ρ : Type} [DecidableEq ρ] {fuel : ℕ} {pq : ρ} :
    ∀ (cells : List (ℕ × ℕ)) (st : LLCacheState ρ) (T1 T2 : ℕ)
      (r : LLCacheState ρ × Bool),
      RectState st pq (T1, T2) →
      (∀ x ∈ cells, legalCell x) →
      llList fuel pq st cells = some r →
      r.2 = true ∧ RectState r.1 pq (cornerFold (T1, T2) cells) := by
  intro cells
  induction cells with
  | nil =>
    intro st T1 T2 r hrs hleg hres
    rw [llList] at hres
    obtain rfl : (st, true) = r := Option.some_injective _ hres
    exact ⟨rfl, hrs⟩
  | cons x rest ih =>
    intro st T1 T2 r hrs hleg hres
    obtain ⟨x1, x2⟩ := x
    rw [llList] at hres
    rcases hstep : llCallM fuel pq st x1 x2 with _ | ⟨st', bb⟩
    · rw [hstep] at hres
      cases hres
    · rw [hstep] at hres
      obtain ⟨hbb, hrs'⟩ :=
        rectState_step hrs (hleg (x1, x2) (List.mem_cons_self _ _)) hstep
      have hbb' : bb = true := hbb
      subst hbb'
      simp only [] at hres
      exact ih st' (max T1 x1) (max T2 x2) r hrs'
        (fun y hy => hleg y (List.mem_cons_of_mem _ hy)) hres

/-- The whole body of a call at parameters different from the recorded ones
proceeds exactly as from the empty caches: the key check cannot hit (all
recorded keys carry the old parameters) and the entry bookkeeping clears both
caches either way. -/
theorem llCallM_switch {ρ : Type} [DecidableEq ρ] (fuel : ℕ) (pq1 pq2 : ρ)
    (st : LLCacheState ρ) (a b c m : ℕ)
    (hne : pq2 ≠ pq1)
    (hcache : st.maxLLCache = some (pq1, a, b))
    (hmemo : ∀ x ∈ st.memo, x.2 = pq1) :
    llCallM fuel pq2 st c m = llCallM fuel pq2 (freshLLState ρ) c m := by
  cases fuel with
  | zero =>
    rw [llCallM, llCallM]
  | succ f =>
    rw [llCallM, llCallM]
    have h1 : ((c, m), pq2) ∉ st.memo := fun hcon => hne (hmemo _ hcon)
    have h2 : ((c, m), pq2) ∉ (freshLLState ρ).memo := by
      simp [freshLLState]
    rw [if_neg h1, if_neg h2]
    have he1 : effCache st pq2 = (⟨none, []⟩, 0, 0) := by
      rw [effCache, hcache]
      exact if_neg (fun hcon => hne hcon.symm)
    have he2 : effCache (freshLLState ρ) pq2 = (⟨none, []⟩, 0, 0) := rfl
    rw [he1, he2]

/-- C2: invoking the likelihood kernel at `(c, m) = (0, 0)` or `(0, 1)` fails
with the zero-likelihood error and never returns a value: the pure kernel
yields `none` for every `p` and `q`, and in the memoized machine every
terminating call at a zero-likelihood cell — from any reachable cache state —
returns the error flag instead of a value. -/
theorem claim_C2_zero_likelihood :
    (∀ p q : ℝ, ll_genotype 0 0 p q = none ∧ ll_genotype 0 1 p q = none) ∧
    ∀ (ρ : Type) [DecidableEq ρ] (fuel : ℕ) (pq : ρ) (st : LLCacheState ρ)
      (c m : ℕ) (r : LLCacheState ρ × Bool),
      c = 0 → m ≤ 1 →
      DCSet (memoSet st pq) → Consistent st pq →
      llCallM fuel pq st c m = some r →
      r.2 = false := by
  constructor
  · intro p q
    exact ⟨rfl, rfl⟩
  · intro ρ inst fuel
    induction fuel with
    | zero =>
      intro pq st c m r hc hm hdc hcons hres
      rw [llCallM] at hres
      cases hres
    | succ f ih =>
      intro pq st c m r hc hm hdc hcons hres
      subst hc
      rw [llCallM] at hres
      have hmem : ((0, m), pq) ∉ st.memo := by
        intro hcon
        rcases hdc.1 (0, m) hcon with h | h
        · simp only [] at h
          omega
        · simp only [] at h
          omega
      rw [if_neg hmem] at hres
      rcases effCache_cases st pq with ⟨a, b, hab, he⟩ | he
      · rw [he] at hres
        simp only [] at hres
        by_cases hfc : a < 0 ∨ b < m
        · rw [if_pos hfc] at hres
          rcases hrun : llList f pq ⟨some (pq, 0, m), st.memo⟩ (fillCells a b 0 m)
            with _ | ⟨st2, b2⟩
          · rw [hrun] at hres
            cases hres
          · rw [hrun] at hres
            cases b2 with
            | false =>
              simp only [] at hres
              obtain rfl : ((st2, false) : LLCacheState ρ × Bool) = r :=
                Option.some_injective _ hres
              rfl
            | true =>
              obtain ⟨-, -, -, hdc2, hcons2, -⟩ :=
                llList_gen_of_call (llCall_spec f) pq ⟨some (pq, 0, m), st.memo⟩
                  (fillCells a b 0 m) 0 m (max a 0) (max b m) (st2, true) rfl hdc
                  (fun x _ => ⟨0, m, rfl⟩) (fun x hx => mem_fillCells_bound hx)
                  (Nat.zero_le _) (le_max_right _ _) hrun
              simp only [] at hres
              rcases htr : llCallM f pq st2 0 m with _ | ⟨st3, b3⟩
              · rw [htr] at hres
                cases hres
              · rw [htr] at hres
                have hb3 : b3 = false := ih pq st2 0 m (st3, b3) rfl hm hdc2 hcons2 htr
                subst hb3
                simp only [] at hres
                obtain rfl : ((st3, false) : LLCacheState ρ × Bool) = r :=
                  Option.some_injective _ hres
                rfl
        · rw [if_neg hfc] at hres
          rw [if_pos ⟨trivial, hm⟩] at hres
          obtain rfl : ((st, false) : LLCacheState ρ × Bool) = r :=
            Option.some_injective _ hres
          rfl
      · rw [he] at hres
        simp only [] at hres
        by_cases hfc : (0 : ℕ) < 0 ∨ (0 : ℕ) < m
        · rw [if_pos hfc] at hres
          rcases hrun : llList f pq ⟨some (pq, 0, m), []⟩ (fillCells 0 0 0 m)
            with _ | ⟨st2, b2⟩
          · rw [hrun] at hres
            cases hres
          · rw [hrun] at hres
            cases b2 with
            | false =>
              simp only [] at hres
              obtain rfl : ((st2, false) : LLCacheState ρ × Bool) = r :=
                Option.some_injective _ hres
              rfl
            | true =>
              have hdcb : DCSet (memoSet (⟨some (pq, 0, m), []⟩ : LLCacheState ρ) pq) := by
                have hempb : memoSet (⟨some (pq, 0, m), []⟩ : LLCacheState ρ) pq = ∅ := by
                  ext x
                  simp [memoSet]
                rw [hempb]
                exact DCSet_empty
              obtain ⟨-, -, -, hdc2, hcons2, -⟩ :=
                llList_gen_of_call (llCall_spec f) pq ⟨some (pq, 0, m), []⟩
                  (fillCells 0 0 0 m) 0 m (max 0 0) (max 0 m) (st2, true) rfl hdcb
                  (fun x _ => ⟨0, m, rfl⟩) (fun x hx => mem_fillCells_bound hx)
                  (Nat.zero_le _) (le_max_right _ _) hrun
              simp only [] at hres
              rcases htr : llCallM f pq st2 0 m with _ | ⟨st3, b3⟩
              · rw [htr] at hres
                cases hres
              · rw [htr] at hres
                have hb3 : b3 = false := ih pq st2 0 m (st3, b3) rfl hm hdc2 hcons2 htr
                subst hb3
                simp only [] at hres
                obtain rfl : ((st3, false) : LLCacheState ρ × Bool) = r :=
                  Option.some_injective _ hres
                rfl
        · rw [if_neg hfc] at hres
          rw [if_pos ⟨trivial, hm⟩] at hres
          obtain rfl : ((⟨none, []⟩, false) : LLCacheState ρ × Bool) = r :=
            Option.some_injective _ hres
          rfl

/-- Witness for C2: the concrete call at `(0, 0)` with fuel 1 from the empty
caches returns the error flag. -/
theorem claim_C2_zero_likelihood_witness :
    (llCallM 1 (0 : ℕ) (freshLLState ℕ) 0 0 = some (⟨none, []⟩, false)) ∧
    ((⟨none, []⟩, false) : LLCacheState ℕ × Bool).2 = false := by
  have hrun : llCallM 1 (0 : ℕ) (freshLLState ℕ) 0 0 = some (⟨none, []⟩, false) := by
    simp [llCallM, effCache, freshLLState]
  refine ⟨hrun, ?_⟩
  exact claim_C2_zero_likelihood.2 ℕ 1 0 (freshLLState ℕ) 0 0 (⟨none, []⟩, false)
    rfl (by decide)
    (by rw [memoSet_fresh]; exact DCSet_empty)
    (by intro x hx; rw [memoSet_fresh] at hx; exact absurd hx (Set.not_mem_empty x))
    hrun

/-- C3: for any finite sequence of legal accesses at fixed parameters, the
final `lru_cache` key sets (for the current parameters and for any others)
equal those produced by a single fresh bulk request at the componentwise
maximum `(max c_i, max m_i)`: the three-rectangle fill discipline makes the
cache contents depend only on that maximum, for every access order. -/
theorem claim_C3_monotone_fill {ρ : Type} [DecidableEq ρ]
    (pq : ρ) (accs : List (ℕ × ℕ)) (fuelA fuelB : ℕ)
    (stA stB : LLCacheState ρ) (bA bB : Bool)
    (hne : accs ≠ [])
    (hleg : ∀ x ∈ accs, legalCell x)
    (hA : llList fuelA pq (freshLLState ρ) accs = some (stA, bA))
    (hB : llCallM fuelB pq (freshLLState ρ) (cornerFold (0, 0) accs).1
      (cornerFold (0, 0) accs).2 = some (stB, bB)) :
    ∀ pq', memoSet stA pq' = memoSet stB pq' := by
  obtain ⟨hbA, hrsA⟩ := rectState_list accs (freshLLState ρ) 0 0 (stA, bA)
    (rectState_fresh pq) hleg hA
  have hlegC : legalCell ((cornerFold (0, 0) accs).1, (cornerFold (0, 0) accs).2) :=
    cornerFold_legal hne hleg
  obtain ⟨hbB, hrsB⟩ := rectState_step (rectState_fresh pq) hlegC hB
  intro pq'
  by_cases hpq : pq' = pq
  · subst hpq
    have hA2 : memoSet stA pq' =
        rectCells (cornerFold (0, 0) accs).1 (cornerFold (0, 0) accs).2 := hrsA.2.1
    have hB2 : memoSet stB pq' =
        rectCells (max 0 (cornerFold (0, 0) accs).1)
          (max 0 (cornerFold (0, 0) accs).2) := hrsB.2.1
    rw [hA2, hB2, Nat.zero_max, Nat.zero_max]
  · rw [hrsA.2.2 pq' hpq, hrsB.2.2 pq' hpq]

/-- Witness for C3: the access sequence `[(0, 2)]` and the bulk request at its
maximum produce the same concrete cache. -/
theorem claim_C3_monotone_fill_witness :
    (([((0 : ℕ), (2 : ℕ))] : List (ℕ × ℕ)) ≠ []) ∧
    ∀ pq', memoSet (⟨some (0, 0, 2), [((0, 2), 0)]⟩ : LLCacheState ℕ) pq' =
      memoSet (⟨some (0, 0, 2), [((0, 2), 0)]⟩ : LLCacheState ℕ) pq' := by
  have hA : llList 3 (0 : ℕ) (freshLLState ℕ) [(0, 2)] =
      some (⟨some (0, 0, 2), [((0, 2), 0)]⟩, true) := by
    simp [llCallM, llList, effCache, freshLLState, fillCells, pyRange, insertMemo,
      computeDeps, List.range', List.range]
  have hB : llCallM 3 (0 : ℕ) (freshLLState ℕ) (cornerFold (0, 0) [(0, 2)]).1
      (cornerFold (0, 0) [(0, 2)]).2 =
      some (⟨some (0, 0, 2), [((0, 2), 0)]⟩, true) := by
    simp [llCallM, llList, effCache, freshLLState, fillCells, pyRange, insertMemo,
      computeDeps, List.range', List.range, cornerFold]
  exact ⟨by decide, claim_C3_monotone_fill 0 [(0, 2)] 3 3 _ _ true true (by decide)
    (by decide) hA hB⟩

/-- C4: switching parameters invalidates the whole cache: after a successful
evaluation at parameters `pq1` on a legal cell, a call at different
parameters `pq2` behaves exactly as from the empty caches — same result,
same final state. -/
theorem claim_C4_param_switch_is_fresh {ρ : Type} [DecidableEq ρ]
    (fuel1 fuel2 : ℕ) (pq1 pq2 : ρ) (c m : ℕ) (st1 : LLCacheState ρ) (b1 : Bool)
    (hne : pq2 ≠ pq1) (hleg : legalCell (c, m))
    (h1 : llCallM fuel1 pq1 (freshLLState ρ) c m = some (st1, b1)) :
    llCallM fuel2 pq2 st1 c m = llCallM fuel2 pq2 (freshLLState ρ) c m := by
  have hdc : DCSet (memoSet (freshLLState ρ) pq1) := by
    rw [memoSet_fresh]
    exact DCSet_empty
  have hcons : Consistent (freshLLState ρ) pq1 := by
    intro x hx
    rw [memoSet_fresh] at hx
    exact absurd hx (Set.not_mem_empty x)
  obtain ⟨-, -, -, hoth, -, -, hfill⟩ :=
    llCall_spec fuel1 pq1 (freshLLState ρ) c m (st1, b1) hleg hdc hcons h1
  have hmem : (c, m) ∉ memoSet (freshLLState ρ) pq1 := by
    rw [memoSet_fresh]
    exact Set.not_mem_empty _
  have heff : effCache (freshLLState ρ) pq1 = (⟨none, []⟩, 0, 0) := rfl
  have hnle : ¬(c ≤ (effCache (freshLLState ρ) pq1).2.1 ∧
      m ≤ (effCache (freshLLState ρ) pq1).2.2) := by
    rw [heff]
    simp only []
    rcases hleg with h | h <;> omega
  obtain ⟨-, u1, u2, hucach, -⟩ := hfill hmem hnle
  have hmemo : ∀ x ∈ st1.memo, x.2 = pq1 := by
    intro x hx
    by_contra hxn
    have hmm : x.1 ∈ memoSet st1 x.2 := hx
    have h0 : memoSet st1 x.2 = memoSet (⟨none, []⟩ : LLCacheState ρ) x.2 :=
      hoth x.2 hxn
    rw [h0] at hmm
    simp [memoSet] at hmm
  exact llCallM_switch fuel2 pq1 pq2 st1 u1 u2 c m hne hucach hmemo

/-- Witness for C4: a concrete evaluation at parameters `0` on cell `(1, 0)`,
then the call at parameters `1` equals the call from the empty caches. -/
theorem claim_C4_param_switch_is_fresh_witness :
    (llCallM 3 (0 : ℕ) (freshLLState ℕ) 1 0 =
      some (⟨some (0, 1, 0), [((1, 0), 0)]⟩, true)) ∧
    llCallM 3 (1 : ℕ) (⟨some (0, 1, 0), [((1, 0), 0)]⟩ : LLCacheState ℕ) 1 0 =
      llCallM 3 (1 : ℕ) (freshLLState ℕ) 1 0 := by
  have h1 : llCallM 3 (0 : ℕ) (freshLLState ℕ) 1 0 =
      some (⟨some (0, 1, 0), [((1, 0), 0)]⟩, true) := by
    simp [llCallM, llList, effCache, freshLLState, fillCells, pyRange, insertMemo,
      computeDeps, List.range', List.range]
  exact ⟨h1, claim_C4_param_switch_is_fresh 3 3 0 1 1 0 _ true (by decide)
    (by decide) h1⟩

/-- C1: For every `p` and `q` strictly between 0 and 1, the likelihood kernel
`_ll_genotype` returns exactly the closed-form base cases:
`_ll_genotype(1, 0, p, q) = log(1 − p)` with gradient `(−1/(1−p), 0)`, and
`_ll_genotype(0, 2, p, q) = log p + 2·log q` with gradient `(1/p, 2/q)`. -/
theorem claim_C1_base_cases (p q : ℝ) (hp0 : 0 < p) (hp1 : p < 1)
    (hq0 : 0 < q) (hq1 : q < 1) :
    ll_genotype 1 0 p q = some (Real.log (1 - p), -1 / (1 - p), 0) ∧
    ll_genotype 0 2 p q = some (Real.log p + 2 * Real.log q, 1 / p, 2 / q) :=
  ⟨rfl, rfl⟩

/-- Witness for C1 at `p = q = 1/2`. -/
theorem claim_C1_base_cases_witness :
    (0:ℝ) < 1/2 ∧ (1/2:ℝ) < 1 ∧
    (ll_genotype 1 0 (1/2) (1/2) =
        some (Real.log (1 - 1/2), -1 / (1 - 1/2), 0) ∧
      ll_genotype 0 2 (1/2) (1/2) =
        some (Real.log (1/2) + 2 * Real.log (1/2), 1 / (1/2), 2 / (1/2))) :=
  ⟨by norm_num, by norm_num,
    claim_C1_base_cases (1/2) (1/2) (by norm_num) (by norm_num) (by norm_num)
      (by norm_num)⟩

/-- The loop invariant of `_simulate_genotype`'s breadth-first loop: writing
`b` for the number of branching iterations so far, `cumsum + m = 2b` and
`len = b + c`, merged into `cumsum + m + 2c = 2·len`; together with
`len ≤ cumsum + 1` (re-established by each iteration from the loop guard),
termination forces `len = cumsum + 1`, and a result with `c = 0` forces
`m = cumsum + 2 ≥ 2`. -/
theorem simLoop_c_zero_m_ge_two (p q : ℝ) (draws : ℕ → ℝ) :
    ∀ fuel idx cumsum len c m r,
      cumsum + m + 2 * c = 2 * len →
      len ≤ cumsum + 1 →
      simLoop p q draws fuel idx cumsum len c m = some r →
      r.1 = 0 → 2 ≤ r.2 := by
  intro fuel
  induction fuel with
  | zero => intro idx cumsum len c m r _ _ h; simp [simLoop] at h
  | succ f ih =>
    intro idx cumsum len c m r hinv hle h hc
    rw [simLoop] at h
    by_cases hguard : len < cumsum + 1
    · rw [if_pos hguard] at h
      by_cases hbr : draws idx < p
      · rw [if_pos hbr] at h
        set mu := (if draws (idx + 1) < q then 1 else 0) +
          (if draws (idx + 2) < q then 1 else 0) with hmu
        have hmu2 : mu ≤ 2 := by
          rw [hmu]; split <;> split <;> omega
        exact ih _ _ _ _ _ r (by omega) (by omega) h hc
      · rw [if_neg hbr] at h
        exact ih _ _ _ _ _ r (by omega) (by omega) h hc
    · rw [if_neg hguard] at h
      have hr : (c, m) = r := Option.some_injective _ h
      subst hr
      change c = 0 at hc
      change 2 ≤ m
      omega

/-- C10: For every `p, q ∈ [0, 1]` and every draw stream on which
`_simulate_genotype(p, q)` terminates, the returned pair `(c, m)` is never
`(0, 0)` and never `(0, 1)` — i.e. it never satisfies the likelihood kernel's
zero-likelihood guard `c == 0 and m <= 1` (line 307), so evaluating the
kernel on a simulated genotype never reaches the zero-likelihood error
branch. -/
theorem claim_C10_simulation_never_zero_likelihood (p q : ℝ) (draws : ℕ → ℝ)
    (fuel : ℕ) (c m : ℕ)
    (h : simulate_genotype p q draws fuel = some (c, m)) :
    ¬(c = 0 ∧ m ≤ 1) := by
  rw [simulate_genotype] at h
  split at h
  · rintro ⟨rfl, hm⟩
    have := simLoop_c_zero_m_ge_two p q draws fuel 0 0 0 0 0 (0, m)
      (by norm_num) (by norm_num) h rfl
    omega
  · exact absurd h (by simp)

/-- Witness for C10: the all-ones draw stream at `p = q = 1/2` makes the first
node a clonal leaf, so the loop terminates with `(c, m) = (1, 0)`. -/
theorem claim_C10_simulation_never_zero_likelihood_witness :
    ¬((1:ℕ) = 0 ∧ (0:ℕ) ≤ 1) :=
  claim_C10_simulation_never_zero_likelihood (1/2) (1/2) (fun _ => 1) 2 1 0 (by
    rw [simulate_genotype, if_pos (by norm_num)]
    rw [simLoop, if_pos (by norm_num), if_neg (by norm_num)]
    rw [simLoop, if_neg (by norm_num)])

/-- C9 counterexample: in `local_branching` with `tau = tau0 = 1`, a leaf with
abundance 1 contributes `0` to its own downward integral, not
`abundance · τ(1 − e^{−τ0/τ})` as the claim states (the leaf branch at
lines 885-890 only awards the self term when `abundance > 1`), and the claimed
value is nonzero. -/
theorem claim_C9_counterexample :
    lbDownSelf 1 1 (LBTree.node 1 0 []) = 0 ∧
    lbDownSelf 1 1 (LBTree.node 1 0 []) ≠ 1 * cloneContribution 1 1 := by
  have hself : lbDownSelf 1 1 (LBTree.node 1 0 []) = 0 := by
    simp [lbDownSelf, LBTree.children, LBTree.abundance]
  refine ⟨hself, ?_⟩
  rw [hself]
  have hexp : Real.exp (-1 / 1) < 1 := by
    rw [Real.exp_lt_one_iff]; norm_num
  simp only [cloneContribution]
  intro hcontra
  nlinarith

/-- C9 amended: the downward integral of every internal node contains the
self term `abundance · τ(1 − e^{−τ0/τ})`; a leaf's own entry is
`abundance · τ(1 − e^{−τ0/τ})` only when `abundance > 1` and `0` otherwise —
in particular a leaf with abundance ≤ 1 has downward total `0`, even though
for `τ, τ0 > 0` the claimed self term is nonzero. -/
theorem claim_C9_amended (tau tau0 : ℝ) (t : LBTree) :
    (t.children ≠ [] →
      lbDownSelf tau tau0 t = t.abundance * cloneContribution tau tau0) ∧
    (t.children = [] → 1 < t.abundance →
      lbDownSelf tau tau0 t = t.abundance * cloneContribution tau tau0) ∧
    (t.children = [] → t.abundance ≤ 1 → lbDownTotal tau tau0 t = 0) ∧
    (0 < tau → 0 < tau0 → cloneContribution tau tau0 ≠ 0) := by
  obtain ⟨a, d, cs⟩ := t
  have hchild : (LBTree.node a d cs).children = cs := rfl
  have habund : (LBTree.node a d cs).abundance = a := rfl
  refine ⟨?_, ?_, ?_, ?_⟩
  · intro hcs
    rw [hchild] at hcs
    rw [lbDownSelf, if_neg]
    simp [hchild, List.isEmpty_iff, hcs]
  · intro hcs ha
    rw [hchild] at hcs
    rw [habund] at ha
    subst hcs
    rw [lbDownSelf, if_pos (by simp [hchild])]
    rw [habund, if_pos ha]
  · intro hcs ha
    rw [hchild] at hcs
    rw [habund] at ha
    subst hcs
    rw [lbDownTotal]
    have hne : ¬ (1 < (LBTree.node a d ([] : List LBTree)).abundance) := by
      rw [habund]; omega
    rw [lbDownSelf, if_pos (by simp [hchild]), if_neg hne]
    simp [lbDownChildSum]
  · intro ht ht0
    have hexp : Real.exp (-tau0 / tau) < 1 := by
      rw [Real.exp_lt_one_iff]
      exact div_neg_of_neg_of_pos (by linarith) ht
    have : 0 < 1 - Real.exp (-tau0 / tau) := by linarith
    exact mul_ne_zero (ne_of_gt ht) (ne_of_gt this)

/-- Witness for C9 amended, at `τ = τ0 = 1` and a single abundance-1 leaf. -/
theorem claim_C9_amended_witness :
    lbDownTotal 1 1 (LBTree.node 1 0 []) = 0 ∧ cloneContribution 1 1 ≠ 0 :=
  ⟨(claim_C9_amended 1 1 (LBTree.node 1 0 [])).2.2.1 rfl (by decide),
    (claim_C9_amended 1 1 (LBTree.node 1 0 [])).2.2.2 (by norm_num) (by norm_num)⟩

/-- C6 counterexample: two weight tuples that differ only in allele count.
Under the claimed ranking key `(−ℓℓ, iso, mut, alleles)` the tuple with the
extra allele is not minimal and must be trimmed away, but the code's
`minfunckey` (which drops the final allele count, line 1227) ties them, so the
trim keeps it. -/
theorem claim_C6_counterexample :
    ((0:ℝ), (0:ℝ), (0:ℝ), (1:ℝ)) ∈
      trimToOptimal minfunckey lexLe3 [((0:ℝ), (0:ℝ), (0:ℝ), (0:ℝ)), (0, 0, 0, 1)] ∧
    ((0:ℝ), (0:ℝ), (0:ℝ), (1:ℝ)) ∉
      trimToOptimal specLexKey lexLe4 [((0:ℝ), (0:ℝ), (0:ℝ), (0:ℝ)), (0, 0, 0, 1)] := by
  classical
  constructor
  · rw [trimToOptimal, List.mem_filter]
    refine ⟨by simp, ?_⟩
    rw [decide_eq_true_eq]
    intro w' hw'
    rcases List.mem_cons.mp hw' with rfl | hw'
    · norm_num [lexLe3, minfunckey]
    · rcases List.mem_singleton.mp hw' with rfl
      norm_num [lexLe3, minfunckey]
  · rw [trimToOptimal, List.mem_filter]
    rintro ⟨-, hall⟩
    rw [decide_eq_true_eq] at hall
    have h := hall ((0:ℝ), (0:ℝ), (0:ℝ), (0:ℝ)) (by simp)
    norm_num [specLexKey, lexLe4, lexLe3] at h

/-- C6 amended: without ranking coefficients, `filter_trees` ranks histories
by the lexicographic key `(−ℓℓ, iso, mut)` — the allele count is *not* part of
the key (the slice `weighttuple[1:-1]` drops it) — and the DAG is trimmed to
exactly the histories minimizing this three-component key.  Consequently two
histories whose weight tuples differ only in allele count are kept or trimmed
together. -/
theorem claim_C6_amended (ws : List (ℝ × ℝ × ℝ × ℝ)) (w w' : ℝ × ℝ × ℝ × ℝ)
    (h1 : w.1 = w'.1) (h2 : w.2.1 = w'.2.1) (h3 : w.2.2.1 = w'.2.2.1)
    (hw : w ∈ ws) (hw' : w' ∈ ws) :
    (w ∈ trimToOptimal minfunckey lexLe3 ws ↔
      w' ∈ trimToOptimal minfunckey lexLe3 ws) ∧
    (w ∈ trimToOptimal minfunckey lexLe3 ws →
      ∀ u ∈ ws, lexLe3 (minfunckey w) (minfunckey u)) := by
  classical
  have hkey : minfunckey w = minfunckey w' := by
    simp [minfunckey, h1, h2, h3]
  constructor
  · simp only [trimToOptimal, List.mem_filter, decide_eq_true_eq, hkey]
    exact ⟨fun h => ⟨hw', h.2⟩, fun h => ⟨hw, h.2⟩⟩
  · intro hmem u hu
    rw [trimToOptimal, List.mem_filter, decide_eq_true_eq] at hmem
    exact hmem.2 u hu

/-- Witness for C6 amended, on the two-history list of the counterexample. -/
theorem claim_C6_amended_witness :
    (((0:ℝ), (0:ℝ), (0:ℝ), (0:ℝ)) ∈
        trimToOptimal minfunckey lexLe3 [((0:ℝ), (0:ℝ), (0:ℝ), (0:ℝ)), (0, 0, 0, 1)] ↔
      ((0:ℝ), (0:ℝ), (0:ℝ), (1:ℝ)) ∈
        trimToOptimal minfunckey lexLe3 [((0:ℝ), (0:ℝ), (0:ℝ), (0:ℝ)), (0, 0, 0, 1)]) ∧
    (((0:ℝ), (0:ℝ), (0:ℝ), (0:ℝ)) ∈
        trimToOptimal minfunckey lexLe3 [((0:ℝ), (0:ℝ), (0:ℝ), (0:ℝ)), (0, 0, 0, 1)] →
      ∀ u ∈ [((0:ℝ), (0:ℝ), (0:ℝ), (0:ℝ)), ((0:ℝ), (0:ℝ), (0:ℝ), (1:ℝ))],
        lexLe3 (minfunckey ((0:ℝ), (0:ℝ), (0:ℝ), (0:ℝ))) (minfunckey u)) :=
  claim_C6_amended _ _ _ rfl rfl rfl (by simp) (by simp)

/-- C7 counterexample: collapsing the chain
root(name root, abundance 2) – A(abundance 0, dist 0) – B(abundance 3, dist 0)
(all three with the same sequence, so all recomputed distances are 0) does
*not* yield a tree whose merged name set contains all three identifiers: the
constructor raises a `RuntimeError` ("observed genotypes don't match after
collapse"), because the merged tuple name `(root, B)` fails the
observed-genotype preservation check of lines 132-143.  In particular the
result is not the claimed single node carrying the three names. -/
theorem claim_C7_counterexample :
    collapseInit
        (PTree.node {"root"} "AA" 2
          [PTree.node {"A"} "AA" 0 [PTree.node {"B"} "AA" 3 []]]) false =
      Except.error CollapseError.nameMismatch ∧
    collapseInit
        (PTree.node {"root"} "AA" 2
          [PTree.node {"A"} "AA" 0 [PTree.node {"B"} "AA" 3 []]]) false ≠
      Except.ok (PTree.node {"root", "A", "B"} "AA" 3 []) := by
  constructor
  · rfl
  · intro h
    rw [show collapseInit
        (PTree.node {"root"} "AA" 2
          [PTree.node {"A"} "AA" 0 [PTree.node {"B"} "AA" 3 []]]) false =
      Except.error CollapseError.nameMismatch from rfl] at h
    exact absurd h (by simp)

/-- C7 amended: on the chain root(abundance 2) – A(abundance 0, dist 0) –
B(abundance 3, dist 0), the collapse pass itself produces a single node with
abundance `max(2, 0, 3) = 3` whose merged name set is `{root, B}` only — A is
an unobserved internal unifurcation, spliced out before names are recorded, so
its identifier is dropped — and the constructor then fails the
observed-genotype preservation check (the merged tuple name is not an element
of the observed set of strings), so `CollapsedTree.__init__` raises rather
than returning this tree. -/
theorem claim_C7_amended :
    collapseNode
        (observedNames (delUnifs
          (PTree.node {"root"} "AA" 2
            [PTree.node {"A"} "AA" 0 [PTree.node {"B"} "AA" 3 []]])))
        (delUnifs
          (PTree.node {"root"} "AA" 2
            [PTree.node {"A"} "AA" 0 [PTree.node {"B"} "AA" 3 []]])) =
      PTree.node {"root", "B"} "AA" 3 [] ∧
    collapseInit
        (PTree.node {"root"} "AA" 2
          [PTree.node {"A"} "AA" 0 [PTree.node {"B"} "AA" 3 []]]) false =
      Except.error CollapseError.nameMismatch := by
  exact ⟨rfl, rfl⟩

/-- C8 counterexample: a collapsed tree in which two distinct nodes (sisters
A and B) share the sequence `AT`, yet construction with
`allow_repeats = False` succeeds, because B has abundance 0 and the repeat
check of lines 145-158 counts only positive-abundance nodes.  This refutes
"fails … regardless of the nodes' abundances". -/
theorem claim_C8_counterexample :
    collapseInit
        (PTree.node {"root"} "AA" 1
          [PTree.node {"A"} "AT" 1 [], PTree.node {"B"} "AT" 0 []]) false =
      Except.ok
        (PTree.node {"root"} "AA" 1
          [PTree.node {"A"} "AT" 1 [], PTree.node {"B"} "AT" 0 []]) ∧
    ¬ ((PTree.node {"root"} "AA" 1
          [PTree.node {"A"} "AT" 1 [], PTree.node {"B"} "AT" 0 []]).nodes.map
        PTree.sequence).Nodup := by
  refine ⟨rfl, ?_⟩
  decide

/-- `rep_seq = sum(abundance > 0) - len(set(sequences))` is nonzero exactly
when the positive-abundance sequence list has a duplicate. -/
theorem length_sub_card_ne_zero_iff {α : Type} [DecidableEq α] (l : List α) :
    l.length - l.toFinset.card ≠ 0 ↔ ¬ l.Nodup := by
  rw [List.card_toFinset]
  constructor
  · intro h hnd
    rw [List.dedup_eq_self.mpr hnd] at h
    omega
  · intro hnd h
    have hsub := List.dedup_sublist l
    have hlenle := hsub.length_le
    have hlen : l.dedup.length = l.length := by omega
    exact hnd (hsub.eq_of_length hlen ▸ List.nodup_dedup l)

/-- C8 amended: with `allow_repeats = False`, construction fails with the
repeated-sequence `RuntimeError` if and only if the observed-name check passes
and the sequences of the *positive-abundance* post-collapse nodes contain a
duplicate; repeated sequences on abundance-0 nodes are not rejected. -/
theorem claim_C8_amended (t : PTree) :
    collapseInit t false = Except.error CollapseError.repeatedSequences ↔
      (finalObserved (collapseNode (observedNames (delUnifs t)) (delUnifs t)) =
          observedNames (delUnifs t) ∧
        ¬ (posSeqs (collapseNode (observedNames (delUnifs t)) (delUnifs t))).Nodup) := by
  set t2 := collapseNode (observedNames (delUnifs t)) (delUnifs t) with ht2
  set obs := observedNames (delUnifs t) with hobs
  have e : collapseInit t false =
      (if finalObserved t2 ≠ obs then Except.error CollapseError.nameMismatch
       else if false = false ∧ (posSeqs t2).length - (posSeqs t2).toFinset.card ≠ 0 then
         Except.error CollapseError.repeatedSequences
       else Except.ok t2) := rfl
  rw [e]
  by_cases h1 : finalObserved t2 = obs
  · rw [if_neg (by simp [h1])]
    by_cases h2 : (posSeqs t2).length - (posSeqs t2).toFinset.card ≠ 0
    · rw [if_pos ⟨rfl, h2⟩]
      exact iff_of_true rfl ⟨h1, (length_sub_card_ne_zero_iff _).mp h2⟩
    · rw [if_neg (fun hc => h2 hc.2)]
      refine iff_of_false (by simp) ?_
      rintro ⟨-, hdup⟩
      exact h2 ((length_sub_card_ne_zero_iff _).mpr hdup)
  · rw [if_pos h1]
    refine iff_of_false (by simp) ?_
    rintro ⟨hfo, -⟩
    exact h1 hfo

/-- C5: a collapsed tree whose root has `(c_root, m_root) = (0, 1)` records
`(1, 1)` in its CM summary in place of `(0, 1)` (`_build_cm_counts`,
lines 199-212); the history-DAG log-likelihood edge weight applies the same
replacement when the parent is the DAG root and the child has `c = 0, m = 1`
(lines 1894-1897); hence such a tree has the same CM summary — and therefore
the same likelihood, which is a function of the CM summary alone — as a tree
with the same descendant data whose root entry is `(1, 1)`. -/
theorem claim_C5_pseudocount (t t' : PTree) (p q : ℝ)
    (h : cmPair t = (0, 1)) (h' : cmPair t' = (1, 1))
    (hdesc : (↑(t.descList.map cmPair) : Multiset (ℕ × ℕ)) =
      (↑(t'.descList.map cmPair) : Multiset (ℕ × ℕ)))
    (n1 n2 : DagNode) (hr : n1.isRoot = true)
    (hnl : ¬(n2.isLeafNode ∧ n2.label.sequence = n1.label.sequence))
    (hab : n2.label.abundance = 0) (hm : dagCladeCount n2 = 1) :
    cmMultiset t = (↑(t.descList.map cmPair) : Multiset (ℕ × ℕ)) + {(1, 1)} ∧
    cmMultiset t = cmMultiset t' ∧
    lltreeOfCM (cmMultiset t) p q = lltreeOfCM (cmMultiset t') p q ∧
    edge_weight_ll_genotype p q n1 n2 = (ll_genotype 1 1 p q).map (·.1) := by
  have e1 : cmMultiset t = (↑(t.descList.map cmPair) : Multiset (ℕ × ℕ)) + {(1, 1)} := by
    rw [cmMultiset, h]
    norm_num
  have e2 : cmMultiset t = cmMultiset t' := by
    rw [e1, cmMultiset, h', hdesc]
    norm_num
  refine ⟨e1, e2, by rw [e2], ?_⟩
  rw [edge_weight_ll_genotype, if_neg hnl]
  simp only [hm, hab, hr, true_and]
  norm_num

/-- Witness for C5: a concrete unifurcating-root tree, its `(1, 1)`-root
counterpart, and a concrete DAG-root edge to an unobserved unifurcation. -/
theorem claim_C5_pseudocount_witness :
    cmMultiset (PTree.node ∅ "A" 0 [PTree.node ∅ "T" 1 []]) =
      (↑((PTree.node ∅ "A" 0 [PTree.node ∅ "T" 1 []]).descList.map cmPair) :
        Multiset (ℕ × ℕ)) + {(1, 1)} ∧
    cmMultiset (PTree.node ∅ "A" 0 [PTree.node ∅ "T" 1 []]) =
      cmMultiset (PTree.node ∅ "A" 1 [PTree.node ∅ "T" 1 []]) ∧
    lltreeOfCM (cmMultiset (PTree.node ∅ "A" 0 [PTree.node ∅ "T" 1 []])) (1/2) (1/2) =
      lltreeOfCM (cmMultiset (PTree.node ∅ "A" 1 [PTree.node ∅ "T" 1 []])) (1/2) (1/2) ∧
    edge_weight_ll_genotype (1/2) (1/2)
        ⟨⟨"A", 0⟩, {{⟨"T", 1⟩}}, true⟩ ⟨⟨"T", 0⟩, {{⟨"G", 1⟩}}, false⟩ =
      (ll_genotype 1 1 (1/2) (1/2)).map (·.1) :=
  claim_C5_pseudocount _ _ (1/2) (1/2) (by decide) (by decide) (by decide)
    _ _ (by decide) (by decide) (by decide) (by decide)

end Gctree
